import Mathlib

/-!
# Verification of `fluxion-out-postgres` (`main.go`)

A shallow embedding of the output plugin's three operations

* `OutPostgres.Init`   — builds the placeholder cache `spool`,
* `OutPostgres.Encode` — projects an event onto a `data` record,
* `OutPostgres.Write`  — inserts a batch in one transaction, shrinking the
  batch and retrying when a record fails,

followed by theorems about them.

Modelling conventions.

* Go `string` is Lean `String`; Go `len(s)` is the UTF-8 byte length
  `String.utf8ByteSize`, and a Go slice expression `s[:k]` is
  `String.extract s 0 ⟨k⟩` (both address bytes).
* Go `interface{}` values stored in a record are the inductive type `Value`.
* Go `map[string]string` has no iteration order: `Encode` receives, as an
  explicit argument, the sequence of `(cname, rname)` pairs that its `range`
  statement yields on that call.
* `database/sql` and the host logger are external: they are a `Driver` acting
  on an abstract state `σ`.  Each method returns the new state and the Go
  `error` (`none` is `nil`).
* An index out of range (`p.spool[n]`) is a Go run-time panic; it is an
  explicit outcome of the model.
-/

namespace OutPostgres

/-! ## Data model -/

/-- Go `error` values (only their identity matters). -/
structure GoError where
  msg : String
  deriving DecidableEq, Repr

/-- The `time.Time` carried by an event. -/
structure Time where
  unixNano : Int
  deriving DecidableEq, Repr

/-- Dynamic values (`interface{}`) that end up as bound parameters. -/
inductive Value where
  | null
  | bool (b : Bool)
  | int (i : Int)
  | str (s : String)
  | time (t : Time)
  deriving DecidableEq, Repr

/-- The `message.Event` of the host: `Tag`, `Time` and the `Record` map,
given by its key/value entries (lookup takes the entry of a key). -/
structure Event where
  Tag : String
  Time : Time
  Record : List (String × Value)
  deriving DecidableEq, Repr

/-- The plugin configuration; `Mapping` lists the entries `cname ↦ rname` of the
Go map. -/
structure Config where
  URI : String
  Table : String
  Mapping : List (String × String)
  deriving DecidableEq, Repr

/-- The encoded record `data`. -/
structure data where
  columns : String
  values : List Value
  deriving DecidableEq, Repr

/-- The part of the plugin struct that `Encode` and `Write` read. -/
structure Plugin where
  conf : Config
  spool : List String
  deriving DecidableEq, Repr

/-! ## `Init`: the placeholder cache -/

/-- The loop `for i, l := 2, len(Mapping); i <= l; i++` of `Init`, entered with
counter `i` and `k` iterations left. -/
def initLoop : Nat → Nat → List String → List String
  | 0, _, spool => spool
  | k + 1, i, spool =>
    initLoop k (i + 1) (spool ++ [spool.getD (i - 1) "" ++ ",$" ++ toString i])

/-- `Init`, after the configuration was read. -/
def Init (conf : Config) : Plugin :=
  { conf := conf
    spool := initLoop (conf.Mapping.length - 1) 2 ["", "$1"] }

/-! ## `Encode` -/

/-- `data.add`. -/
def data.add (d : data) (v : Value) : data :=
  { d with values := d.values ++ [v] }

/-- The value a selector resolves to: the `switch rname` of `Encode`.
`none` is the `continue` branch. -/
def resolve (ev : Event) (rname : String) : Option Value :=
  if rname = "@tag" ∨ rname = "_tag" then some (Value.str ev.Tag)
  else if rname = "@timestamp" ∨ rname = "_timestamp" then some (Value.time ev.Time)
  else ev.Record.lookup rname

/-- One iteration of the `range` loop of `Encode` on the record `d` and the
scratch buffer `buf`. -/
def encodeStep (ev : Event) (acc : data × String) (entry : String × String) :
    data × String :=
  match resolve ev entry.2 with
  | none => acc
  | some v => (acc.1.add v, acc.2 ++ entry.1 ++ ",")

/-- `Encode` on the iteration sequence `order` of the mapping: the record
(`none` is the nil record) and the error. -/
def Encode (order : List (String × String)) (ev : Event) :
    Option data × Option GoError :=
  let r := order.foldl (encodeStep ev) ({ columns := "", values := [] }, "")
  let n := r.2.utf8ByteSize
  if n = 0 then (none, none)
  else (some { r.1 with columns := r.2.extract 0 ⟨n - 1⟩ }, none)

/-- `data.Size`. -/
def data.Size (d : data) : Int :=
  ((d.columns.utf8ByteSize + d.values.length : Nat) : Int)

/-! ## What the specification asks of `Init` and `Encode` -/

/-- The placeholder string for arity `n`: the markers `$1`, ..., `$n` in
ascending order, joined by single commas. -/
def markers (n : Nat) : String :=
  String.intercalate "," ((List.range' 1 n).map (fun i => "$" ++ toString i))

/-- The selector is one of the tag or timestamp sentinels. -/
def isSentinel (rname : String) : Bool :=
  decide (rname = "@tag" ∨ rname = "_tag" ∨ rname = "@timestamp" ∨ rname = "_timestamp")

/-- The key `k` is a key of the event's fields. -/
def hasField (ev : Event) (k : String) : Bool :=
  decide (k ∈ ev.Record.map Prod.fst)

/-- The mapping entry resolves on the event: its selector is a sentinel or a
key of the event's fields. -/
def resolves (ev : Event) (entry : String × String) : Bool :=
  isSentinel entry.2 || hasField ev entry.2

/-- The entries of the iteration sequence that resolve on the event, in
iteration order. -/
def emitted (order : List (String × String)) (ev : Event) : List (String × String) :=
  order.filter (resolves ev)

/-- The column names, each followed by a comma: what `Encode` writes to its
buffer. -/
def withCommas : List String → String
  | [] => ""
  | c :: cs => c ++ "," ++ withCommas cs

/-! ## `Write` -/

/-- The database driver and the host logger, acting on a state `σ`. -/
structure Driver (σ : Type) where
  Begin : σ → σ × Option GoError
  Exec : String → List Value → σ → σ × Option GoError
  Rollback : σ → σ × Option GoError
  Commit : σ → σ × Option GoError
  LogError : GoError → σ → σ

/-- The statement text built for a record; `none` when `p.spool[n]` is out of
range. -/
def stmtOf (p : Plugin) (d : data) : Option String :=
  match p.spool.get? d.values.length with
  | none => none
  | some ph =>
    some ("INSERT INTO " ++ p.conf.Table ++ "(" ++ d.columns ++ ") VALUES(" ++ ph ++ ")")

/-- How the `for i, item := range l` loop of `Write` ends. -/
inductive LoopResult (σ : Type) where
  | done (s : σ)
  | failed (i : Nat) (err : GoError) (s : σ)
  | panicked (s : σ)
  deriving DecidableEq, Repr

/-- The loop of `Write` up to the first failing `Exec`, entered at index `i`. -/
def insertLoop {σ : Type} (p : Plugin) (drv : Driver σ) :
    List data → Nat → σ → LoopResult σ
  | [], _, s => LoopResult.done s
  | d :: rest, i, s =>
    match stmtOf p d with
    | none => LoopResult.panicked s
    | some stmt =>
      match drv.Exec stmt d.values s with
      | (s1, some err) => LoopResult.failed i err s1
      | (s1, none) => insertLoop p drv rest (i + 1) s1

/-- What a call of `Write` produces. -/
inductive Outcome (σ : Type) where
  | ret (consumed : Nat) (err : Option GoError) (s : σ)
  | panic (s : σ)
  deriving DecidableEq, Repr

/-- One activation of `Write`: either it finishes, or it ends in the tail call
`p.Write(l[:i])`. -/
inductive Step (σ : Type) where
  | final (o : Outcome σ)
  | retry (i : Nat) (s : σ)
  deriving DecidableEq, Repr

/-- The body of `Write`, with the recursive call left to the caller. -/
def attempt {σ : Type} (p : Plugin) (drv : Driver σ) (l : List data) (s : σ) : Step σ :=
  match drv.Begin s with
  | (s1, some err) => Step.final (Outcome.ret 0 (some err) (drv.LogError err s1))
  | (s1, none) =>
    match insertLoop p drv l 0 s1 with
    | LoopResult.panicked s2 => Step.final (Outcome.panic s2)
    | LoopResult.failed i err s2 =>
      match drv.Rollback (drv.LogError err s2) with
      | (s3, some err1) => Step.final (Outcome.ret 0 (some err1) (drv.LogError err1 s3))
      | (s3, none) =>
        if i > 0 then Step.retry i s3
        else Step.final (Outcome.ret 1 none s3)
    | LoopResult.done s2 =>
      match drv.Commit s2 with
      | (s3, some err) => Step.final (Outcome.ret 0 (some err) (drv.LogError err s3))
      | (s3, none) => Step.final (Outcome.ret l.length none s3)

/-- A failing index reported by the loop lies inside the part it ran over. -/
theorem insertLoop_failed_bound {σ : Type} (p : Plugin) (drv : Driver σ) :
    ∀ (l : List data) (i : Nat) (s : σ) (j : Nat) (e : GoError) (s1 : σ),
      insertLoop p drv l i s = LoopResult.failed j e s1 → i ≤ j ∧ j < i + l.length := by
  intro l
  induction l with
  | nil => intro i s j e s1 h; simp [insertLoop] at h
  | cons d rest ih =>
    intro i s j e s1 h
    simp only [insertLoop] at h
    split at h
    · simp at h
    · split at h
      · simp only [LoopResult.failed.injEq] at h
        obtain ⟨rfl, -, -⟩ := h
        simp
      · have := ih _ _ _ _ _ h
        simp only [List.length_cons]
        omega

/-- The tail call of `Write` is made with an index `0 < i < len(l)`. -/
theorem attempt_retry_bound {σ : Type} (p : Plugin) (drv : Driver σ) (l : List data)
    (s : σ) (i : Nat) (s1 : σ) (h : attempt p drv l s = Step.retry i s1) :
    0 < i ∧ i < l.length := by
  unfold attempt at h
  split at h
  · simp at h
  · split at h
    · simp at h
    · rename_i hl
      split at h
      · simp at h
      · split at h
        · rename_i hi
          simp only [Step.retry.injEq] at h
          obtain ⟨rfl, -⟩ := h
          have := insertLoop_failed_bound p drv _ _ _ _ _ _ hl
          omega
        · simp at h
    · split at h <;> simp at h

/-- `Write` on a batch of at most `n` records: the recursion `p.Write(l[:i])`
is on a batch of fewer than `n` records. -/
def WriteN {σ : Type} (p : Plugin) (drv : Driver σ) :
    (n : Nat) → (l : List data) → l.length ≤ n → σ → Outcome σ
  | 0, l, hn, s =>
    match h : attempt p drv l s with
    | Step.final o => o
    | Step.retry i s1 =>
      absurd (attempt_retry_bound p drv l s i s1 h).2 (by omega)
  | n + 1, l, hn, s =>
    match h : attempt p drv l s with
    | Step.final o => o
    | Step.retry i s1 =>
      WriteN p drv n (l.take i)
        (by have := (attempt_retry_bound p drv l s i s1 h).2
            simp only [List.length_take]; omega) s1

/-- `Write`. -/
def Write {σ : Type} (p : Plugin) (drv : Driver σ) (l : List data) (s : σ) : Outcome σ :=
  WriteN p drv l.length l (Nat.le_refl _) s

/-! ## Observing the driver calls -/

/-- A call made on the driver or the logger, with the error it returned. -/
inductive Call where
  | begin (err : Option GoError)
  | exec (stmt : String) (args : List Value) (err : Option GoError)
  | rollback (err : Option GoError)
  | commit (err : Option GoError)
  | log (err : GoError)
  deriving DecidableEq, Repr

/-- The driver `drv` with every call appended to a log: the state is the state
of `drv` paired with the calls made so far. -/
def traced {σ : Type} (drv : Driver σ) : Driver (σ × List Call) where
  Begin := fun w =>
    (((drv.Begin w.1).1, w.2 ++ [Call.begin (drv.Begin w.1).2]), (drv.Begin w.1).2)
  Exec := fun q v w =>
    (((drv.Exec q v w.1).1, w.2 ++ [Call.exec q v (drv.Exec q v w.1).2]), (drv.Exec q v w.1).2)
  Rollback := fun w =>
    (((drv.Rollback w.1).1, w.2 ++ [Call.rollback (drv.Rollback w.1).2]), (drv.Rollback w.1).2)
  Commit := fun w =>
    (((drv.Commit w.1).1, w.2 ++ [Call.commit (drv.Commit w.1).2]), (drv.Commit w.1).2)
  LogError := fun e w => (drv.LogError e w.1, w.2 ++ [Call.log e])

/-- The driver state in which the loop ended. -/
def LoopResult.state {σ : Type} : LoopResult σ → σ
  | LoopResult.done s => s
  | LoopResult.failed _ _ s => s
  | LoopResult.panicked s => s

/-- The driver state in which the call ended. -/
def Outcome.state {σ : Type} : Outcome σ → σ
  | Outcome.ret _ _ s => s
  | Outcome.panic s => s

/-- The driver state in which the activation ended. -/
def Step.state {σ : Type} : Step σ → σ
  | Step.final o => o.state
  | Step.retry _ s => s

/-- The calls made by `Write p drv l` started in state `s`, in order. -/
def callsOf {σ : Type} (p : Plugin) (drv : Driver σ) (l : List data) (s : σ) : List Call :=
  (Write p (traced drv) l (s, [])).state.2

/-- The state after the `Exec`s of the records of `l`, run in order from `s`,
when every statement is built and every `Exec` returns a nil error; `none`
when one of them does not. -/
def runExecs {σ : Type} (p : Plugin) (drv : Driver σ) : List data → σ → Option σ
  | [], s => some s
  | d :: rest, s =>
    match stmtOf p d with
    | none => none
    | some stmt =>
      match drv.Exec stmt d.values s with
      | (s1, none) => runExecs p drv rest s1
      | (_, some _) => none

/-- The call recorded for a record whose `Exec` succeeded. -/
def okExec (p : Plugin) (d : data) : Call :=
  Call.exec ((stmtOf p d).getD "") d.values none

/-- Every record of the batch has an entry in the placeholder cache. -/
def InRange (p : Plugin) (l : List data) : Prop :=
  ∀ d ∈ l, d.values.length < p.spool.length

instance (p : Plugin) (l : List data) : Decidable (InRange p l) :=
  inferInstanceAs (Decidable (∀ d ∈ l, d.values.length < p.spool.length))

/-- Whether the call is a `Begin`. -/
def Call.isBegin : Call → Bool
  | Call.begin _ => true
  | _ => false

/-- Whether the call is a `Begin`, `Rollback` or `Commit` that returned an
error. -/
def Call.txFailed : Call → Bool
  | Call.begin (some _) => true
  | Call.rollback (some _) => true
  | Call.commit (some _) => true
  | _ => false

/-- The call `c` is the `Exec` of the statement of a record of `l`. -/
def ExecOf (p : Plugin) (l : List data) (c : Call) : Prop :=
  ∃ d ∈ l, ∃ q err, stmtOf p d = some q ∧ c = Call.exec q d.values err

/-- The call `c` is not an `Exec`, or is the `Exec` of a record of `l`. -/
def FromBatch (p : Plugin) (l : List data) (c : Call) : Prop :=
  (∀ q v err, c ≠ Call.exec q v err) ∨ ExecOf p l c

/-- The rows held by a transactional store after the calls `cs`, where
`pending` are the rows inserted by the open transaction: the successful
`Exec`s of a transaction are kept when its `Commit` succeeds and dropped by a
`Rollback`, a failed `Commit` or a new `Begin`. -/
def persistedFrom (pending : List (String × List Value)) :
    List Call → List (String × List Value)
  | [] => []
  | Call.begin _ :: cs => persistedFrom [] cs
  | Call.exec q v none :: cs => persistedFrom (pending ++ [(q, v)]) cs
  | Call.exec _ _ (some _) :: cs => persistedFrom pending cs
  | Call.rollback _ :: cs => persistedFrom [] cs
  | Call.commit none :: cs => pending ++ persistedFrom [] cs
  | Call.commit (some _) :: cs => persistedFrom [] cs
  | Call.log _ :: cs => persistedFrom pending cs

/-- The rows persisted by a sequence of calls that starts outside a
transaction. -/
def persisted (cs : List Call) : List (String × List Value) :=
  persistedFrom [] cs

/-- The row inserted for a record: its statement and its parameters. -/
def rowOf (p : Plugin) (d : data) : String × List Value :=
  ((stmtOf p d).getD "", d.values)

/-! ## Simulation between drivers -/

/-- Two drivers whose states stay related by `R` and which return the same
errors. -/
structure Sim {σ τ : Type} (R : σ → τ → Prop) (d1 : Driver σ) (d2 : Driver τ) : Prop where
  onBegin : ∀ s w, R s w → (d1.Begin s).2 = (d2.Begin w).2 ∧ R (d1.Begin s).1 (d2.Begin w).1
  onExec : ∀ q v s w, R s w →
    (d1.Exec q v s).2 = (d2.Exec q v w).2 ∧ R (d1.Exec q v s).1 (d2.Exec q v w).1
  onRollback : ∀ s w, R s w →
    (d1.Rollback s).2 = (d2.Rollback w).2 ∧ R (d1.Rollback s).1 (d2.Rollback w).1
  onCommit : ∀ s w, R s w →
    (d1.Commit s).2 = (d2.Commit w).2 ∧ R (d1.Commit s).1 (d2.Commit w).1
  onLog : ∀ e s w, R s w → R (d1.LogError e s) (d2.LogError e w)

/-- Loop results that agree up to related states. -/
def LoopResult.Rel {σ τ : Type} (R : σ → τ → Prop) : LoopResult σ → LoopResult τ → Prop
  | LoopResult.done s, LoopResult.done w => R s w
  | LoopResult.failed i e s, LoopResult.failed j f w => i = j ∧ e = f ∧ R s w
  | LoopResult.panicked s, LoopResult.panicked w => R s w
  | _, _ => False

/-- Outcomes that agree up to related states. -/
def Outcome.Rel {σ τ : Type} (R : σ → τ → Prop) : Outcome σ → Outcome τ → Prop
  | Outcome.ret c e s, Outcome.ret c1 e1 w => c = c1 ∧ e = e1 ∧ R s w
  | Outcome.panic s, Outcome.panic w => R s w
  | _, _ => False

/-- Activations that agree up to related states. -/
def Step.Rel {σ τ : Type} (R : σ → τ → Prop) : Step σ → Step τ → Prop
  | Step.final o, Step.final o1 => Outcome.Rel R o o1
  | Step.retry i s, Step.retry j w => i = j ∧ R s w
  | _, _ => False

/-! ## A concrete store, to run `Write` on -/

/-- A transactional table: the committed rows and the rows of the open
transaction. -/
structure Store where
  rows : List (String × List Value)
  pending : List (String × List Value)
  deriving DecidableEq, Repr

/-- A driver on `Store` whose `Begin`, `Rollback` and `Commit` succeed and
whose `Exec` rejects the parameter lists on which `bad` holds. -/
def storeDriver (bad : List Value → Bool) : Driver Store where
  Begin := fun s => ({ s with pending := [] }, none)
  Exec := fun q v s =>
    if bad v then (s, some { msg := "rejected" })
    else ({ s with pending := s.pending ++ [(q, v)] }, none)
  Rollback := fun s => ({ s with pending := [] }, none)
  Commit := fun s => ({ rows := s.rows ++ s.pending, pending := [] }, none)
  LogError := fun _ s => s

/-- Whether a parameter list holds a null. -/
def hasNull (v : List Value) : Bool := decide (Value.null ∈ v)

/-- A plugin initialised with a mapping of two columns. -/
def demoPlugin : Plugin :=
  Init { URI := "", Table := "t", Mapping := [("a", "x"), ("b", "y")] }

/-- A record with one column. -/
def rowA : data := { columns := "a", values := [Value.int 1] }

/-- A record with the other column. -/
def rowB : data := { columns := "b", values := [Value.str "z"] }

/-- A record with a null parameter. -/
def rowBad : data := { columns := "a,b", values := [Value.int 2, Value.null] }

/-- The empty store. -/
def emptyStore : Store := { rows := [], pending := [] }

/-- The statement of `rowA`. -/
def stmtA : String := "INSERT INTO t(a) VALUES($1)"

/-- The statement of `rowB`. -/
def stmtB : String := "INSERT INTO t(b) VALUES($1)"

/-- The statement of `rowBad`. -/
def stmtBad : String := "INSERT INTO t(a,b) VALUES($1,$2)"

/-! ## The recursion of `Write` -/

theorem WriteN_final {σ : Type} (p : Plugin) (drv : Driver σ) (n : Nat) (l : List data)
    (hn : l.length ≤ n) (s : σ) (o : Outcome σ) (h : attempt p drv l s = Step.final o) :
    WriteN p drv n l hn s = o := by
  cases n with
  | zero =>
    unfold WriteN
    split
    · rename_i o1 h1
      rw [h] at h1
      injection h1 with h1
      exact h1.symm
    · rename_i i s1 h1
      rw [h] at h1
      cases h1
  | succ n =>
    unfold WriteN
    split
    · rename_i o1 h1
      rw [h] at h1
      injection h1 with h1
      exact h1.symm
    · rename_i i s1 h1
      rw [h] at h1
      cases h1

theorem WriteN_retry {σ : Type} (p : Plugin) (drv : Driver σ) (n : Nat) (l : List data)
    (hn : l.length ≤ n + 1) (s : σ) (i : Nat) (s1 : σ)
    (h : attempt p drv l s = Step.retry i s1) (hi : (l.take i).length ≤ n) :
    WriteN p drv (n + 1) l hn s = WriteN p drv n (l.take i) hi s1 := by
  conv_lhs => unfold WriteN
  split
  · rename_i o1 h1
    rw [h] at h1
    cases h1
  · rename_i i1 s2 h1
    rw [h] at h1
    injection h1 with h1 h2
    subst h1 h2
    rfl

theorem WriteN_indep {σ : Type} (p : Plugin) (drv : Driver σ) :
    ∀ (n m : Nat) (l : List data) (hn : l.length ≤ n) (hm : l.length ≤ m) (s : σ),
      WriteN p drv n l hn s = WriteN p drv m l hm s := by
  intro n
  induction n with
  | zero =>
    intro m l hn hm s
    cases h : attempt p drv l s with
    | final o => rw [WriteN_final p drv _ l _ s o h, WriteN_final p drv _ l _ s o h]
    | retry i s1 =>
      have := (attempt_retry_bound p drv l s i s1 h).2
      omega
  | succ n ih =>
    intro m l hn hm s
    cases h : attempt p drv l s with
    | final o => rw [WriteN_final p drv _ l _ s o h, WriteN_final p drv _ l _ s o h]
    | retry i s1 =>
      have hb := (attempt_retry_bound p drv l s i s1 h).2
      cases m with
      | zero => omega
      | succ m =>
        have h1 : (l.take i).length ≤ n := by simp only [List.length_take]; omega
        have h2 : (l.take i).length ≤ m := by simp only [List.length_take]; omega
        rw [WriteN_retry p drv n l hn s i s1 h h1, WriteN_retry p drv m l hm s i s1 h h2]
        exact ih m _ h1 h2 s1

/-- An activation that finishes gives the result of `Write`. -/
theorem Write_final {σ : Type} (p : Plugin) (drv : Driver σ) (l : List data) (s : σ)
    (o : Outcome σ) (h : attempt p drv l s = Step.final o) : Write p drv l s = o :=
  WriteN_final p drv _ l _ s o h

/-- An activation that ends in `p.Write(l[:i])` gives the result of that call. -/
theorem Write_retry {σ : Type} (p : Plugin) (drv : Driver σ) (l : List data) (s : σ)
    (i : Nat) (s1 : σ) (h : attempt p drv l s = Step.retry i s1) :
    Write p drv l s = Write p drv (l.take i) s1 := by
  have hb := (attempt_retry_bound p drv l s i s1 h).2
  have h1 : (l.take i).length ≤ l.length - 1 := by simp only [List.length_take]; omega
  have h2 : l.length ≤ (l.length - 1) + 1 := by omega
  unfold Write
  rw [WriteN_indep p drv l.length ((l.length - 1) + 1) l (Nat.le_refl _) h2 s,
    WriteN_retry p drv (l.length - 1) l h2 s i s1 h h1]
  exact WriteN_indep p drv _ _ _ _ _ s1

/-! ## The observed driver -/

theorem traced_Begin {σ : Type} (drv : Driver σ) (w : σ × List Call) :
    (traced drv).Begin w =
      (((drv.Begin w.1).1, w.2 ++ [Call.begin (drv.Begin w.1).2]), (drv.Begin w.1).2) := rfl

theorem traced_Exec {σ : Type} (drv : Driver σ) (q : String) (v : List Value)
    (w : σ × List Call) :
    (traced drv).Exec q v w =
      (((drv.Exec q v w.1).1, w.2 ++ [Call.exec q v (drv.Exec q v w.1).2]),
        (drv.Exec q v w.1).2) := rfl

theorem traced_Rollback {σ : Type} (drv : Driver σ) (w : σ × List Call) :
    (traced drv).Rollback w =
      (((drv.Rollback w.1).1, w.2 ++ [Call.rollback (drv.Rollback w.1).2]),
        (drv.Rollback w.1).2) := rfl

theorem traced_Commit {σ : Type} (drv : Driver σ) (w : σ × List Call) :
    (traced drv).Commit w =
      (((drv.Commit w.1).1, w.2 ++ [Call.commit (drv.Commit w.1).2]),
        (drv.Commit w.1).2) := rfl

theorem traced_LogError {σ : Type} (drv : Driver σ) (e : GoError) (w : σ × List Call) :
    (traced drv).LogError e w = (drv.LogError e w.1, w.2 ++ [Call.log e]) := rfl

/-! ## The activations of `Write`, case by case -/

theorem attempt_begin_err {σ : Type} (p : Plugin) (drv : Driver σ) (l : List data)
    (s s1 : σ) (e : GoError) (hB : drv.Begin s = (s1, some e)) :
    attempt p drv l s = Step.final (Outcome.ret 0 (some e) (drv.LogError e s1)) := by
  simp [attempt, hB]

theorem attempt_panicked {σ : Type} (p : Plugin) (drv : Driver σ) (l : List data)
    (s s1 s2 : σ) (hB : drv.Begin s = (s1, none))
    (hL : insertLoop p drv l 0 s1 = LoopResult.panicked s2) :
    attempt p drv l s = Step.final (Outcome.panic s2) := by
  simp [attempt, hB, hL]

theorem attempt_commit_ok {σ : Type} (p : Plugin) (drv : Driver σ) (l : List data)
    (s s1 s2 s3 : σ) (hB : drv.Begin s = (s1, none))
    (hL : insertLoop p drv l 0 s1 = LoopResult.done s2) (hC : drv.Commit s2 = (s3, none)) :
    attempt p drv l s = Step.final (Outcome.ret l.length none s3) := by
  simp [attempt, hB, hL, hC]

theorem attempt_commit_err {σ : Type} (p : Plugin) (drv : Driver σ) (l : List data)
    (s s1 s2 s3 : σ) (e : GoError) (hB : drv.Begin s = (s1, none))
    (hL : insertLoop p drv l 0 s1 = LoopResult.done s2)
    (hC : drv.Commit s2 = (s3, some e)) :
    attempt p drv l s = Step.final (Outcome.ret 0 (some e) (drv.LogError e s3)) := by
  simp [attempt, hB, hL, hC]

theorem attempt_rollback_err {σ : Type} (p : Plugin) (drv : Driver σ) (l : List data)
    (s s1 s2 s3 : σ) (i : Nat) (e r : GoError) (hB : drv.Begin s = (s1, none))
    (hL : insertLoop p drv l 0 s1 = LoopResult.failed i e s2)
    (hR : drv.Rollback (drv.LogError e s2) = (s3, some r)) :
    attempt p drv l s = Step.final (Outcome.ret 0 (some r) (drv.LogError r s3)) := by
  simp [attempt, hB, hL, hR]

theorem attempt_first_failed {σ : Type} (p : Plugin) (drv : Driver σ) (l : List data)
    (s s1 s2 s3 : σ) (e : GoError) (hB : drv.Begin s = (s1, none))
    (hL : insertLoop p drv l 0 s1 = LoopResult.failed 0 e s2)
    (hR : drv.Rollback (drv.LogError e s2) = (s3, none)) :
    attempt p drv l s = Step.final (Outcome.ret 1 none s3) := by
  simp [attempt, hB, hL, hR]

theorem attempt_later_failed {σ : Type} (p : Plugin) (drv : Driver σ) (l : List data)
    (s s1 s2 s3 : σ) (i : Nat) (e : GoError) (hi : 0 < i) (hB : drv.Begin s = (s1, none))
    (hL : insertLoop p drv l 0 s1 = LoopResult.failed i e s2)
    (hR : drv.Rollback (drv.LogError e s2) = (s3, none)) :
    attempt p drv l s = Step.retry i s3 := by
  simp [attempt, hB, hL, hR, hi]

/-! ## The insert loop -/

theorem insertLoop_append {σ : Type} (p : Plugin) (drv : Driver σ) (rest : List data) :
    ∀ (pre : List data) (i : Nat) (s s2 : σ), runExecs p drv pre s = some s2 →
      insertLoop p drv (pre ++ rest) i s = insertLoop p drv rest (i + pre.length) s2 := by
  intro pre
  induction pre with
  | nil =>
    intro i s s2 h
    simp only [runExecs, Option.some.injEq] at h
    subst h
    simp
  | cons d pre ih =>
    intro i s s2 h
    simp only [runExecs] at h
    simp only [List.cons_append, insertLoop, List.length_cons, List.append_eq]
    split at h
    · simp at h
    · rename_i q hq
      split at h
      · rename_i s1 hE
        simp only [hE]
        rw [ih (i + 1) s1 s2 h]
        congr 1
        omega
      · simp at h

theorem insertLoop_done_of_runExecs {σ : Type} (p : Plugin) (drv : Driver σ)
    (l : List data) (i : Nat) (s s2 : σ) (h : runExecs p drv l s = some s2) :
    insertLoop p drv l i s = LoopResult.done s2 := by
  have := insertLoop_append p drv [] l i s s2 h
  simpa [insertLoop] using this

theorem insertLoop_failed_at {σ : Type} (p : Plugin) (drv : Driver σ)
    (pre rest : List data) (d : data) (q : String) (e : GoError) (s s2 s3 : σ)
    (hpre : runExecs p drv pre s = some s2) (hq : stmtOf p d = some q)
    (hE : drv.Exec q d.values s2 = (s3, some e)) :
    insertLoop p drv (pre ++ d :: rest) 0 s = LoopResult.failed pre.length e s3 := by
  rw [insertLoop_append p drv (d :: rest) pre 0 s s2 hpre]
  simp [insertLoop, hq, hE]

theorem runExecs_traced {σ : Type} (p : Plugin) (drv : Driver σ) :
    ∀ (l : List data) (s s2 : σ) (t : List Call), runExecs p drv l s = some s2 →
      runExecs p (traced drv) l (s, t) = some (s2, t ++ l.map (okExec p)) := by
  intro l
  induction l with
  | nil =>
    intro s s2 t h
    simp only [runExecs, Option.some.injEq] at h
    subst h
    simp [runExecs]
  | cons d l ih =>
    intro s s2 t h
    simp only [runExecs] at h
    simp only [runExecs]
    split at h
    · simp at h
    · rename_i q hq
      split at h
      · rename_i s1 hE
        simp only [hq, traced_Exec, hE]
        rw [ih s1 s2 _ h]
        simp [okExec, hq]
      · simp at h

/-! ## Induction along the recursion, and simulation between drivers -/

/-- A property of `Write` follows from the same property of its activations. -/
theorem Write_induct {σ : Type} (p : Plugin) (drv : Driver σ)
    (P : List data → σ → Outcome σ → Prop)
    (hfinal : ∀ l s o, attempt p drv l s = Step.final o → P l s o)
    (hretry : ∀ l s i s1, attempt p drv l s = Step.retry i s1 → 0 < i → i < l.length →
      P (l.take i) s1 (Write p drv (l.take i) s1) → P l s (Write p drv (l.take i) s1)) :
    ∀ (l : List data) (s : σ), P l s (Write p drv l s) := by
  have key : ∀ (n : Nat) (l : List data), l.length ≤ n → ∀ s, P l s (Write p drv l s) := by
    intro n
    induction n with
    | zero =>
      intro l hn s
      cases h : attempt p drv l s with
      | final o =>
        rw [Write_final p drv l s o h]
        exact hfinal l s o h
      | retry i s1 =>
        have := (attempt_retry_bound p drv l s i s1 h).2
        omega
    | succ n ih =>
      intro l hn s
      cases h : attempt p drv l s with
      | final o =>
        rw [Write_final p drv l s o h]
        exact hfinal l s o h
      | retry i s1 =>
        have hb := attempt_retry_bound p drv l s i s1 h
        rw [Write_retry p drv l s i s1 h]
        apply hretry l s i s1 h hb.1 hb.2
        apply ih
        simp only [List.length_take]
        omega
  intro l s
  exact key l.length l (Nat.le_refl _) s

theorem insertLoop_sim {σ τ : Type} (R : σ → τ → Prop) (d1 : Driver σ) (d2 : Driver τ)
    (hs : Sim R d1 d2) (p : Plugin) :
    ∀ (l : List data) (i : Nat) (s : σ) (w : τ), R s w →
      LoopResult.Rel R (insertLoop p d1 l i s) (insertLoop p d2 l i w) := by
  intro l
  induction l with
  | nil => intro i s w h; simpa [insertLoop, LoopResult.Rel] using h
  | cons d rest ih =>
    intro i s w h
    simp only [insertLoop]
    cases hq : stmtOf p d with
    | none => simpa [LoopResult.Rel] using h
    | some q =>
      simp only
      have hE := hs.onExec q d.values s w h
      rcases h1 : d1.Exec q d.values s with ⟨s1, e1⟩
      rcases h2 : d2.Exec q d.values w with ⟨w1, e2⟩
      rw [h1, h2] at hE
      simp only at hE
      obtain ⟨rfl, hR⟩ := hE
      cases e1 with
      | none => exact ih (i + 1) s1 w1 hR
      | some e => simpa [LoopResult.Rel] using hR

theorem attempt_sim {σ τ : Type} (R : σ → τ → Prop) (d1 : Driver σ) (d2 : Driver τ)
    (hs : Sim R d1 d2) (p : Plugin) (l : List data) (s : σ) (w : τ) (h : R s w) :
    Step.Rel R (attempt p d1 l s) (attempt p d2 l w) := by
  unfold attempt
  have hB := hs.onBegin s w h
  rcases h1 : d1.Begin s with ⟨s1, e1⟩
  rcases h2 : d2.Begin w with ⟨w1, e2⟩
  rw [h1, h2] at hB
  simp only at hB
  obtain ⟨rfl, hR1⟩ := hB
  cases e1 with
  | some e => simpa [Step.Rel, Outcome.Rel] using hs.onLog e s1 w1 hR1
  | none =>
    simp only
    have hL := insertLoop_sim R d1 d2 hs p l 0 s1 w1 hR1
    rcases h3 : insertLoop p d1 l 0 s1 with s2 | ⟨i, e, s2⟩ | s2 <;>
      rcases h4 : insertLoop p d2 l 0 w1 with w2 | ⟨j, f, w2⟩ | w2 <;>
      rw [h3, h4] at hL <;> simp only [LoopResult.Rel] at hL
    · have hC := hs.onCommit s2 w2 hL
      dsimp only
      rcases h5 : d1.Commit s2 with ⟨s3, e3⟩
      rcases h6 : d2.Commit w2 with ⟨w3, e4⟩
      rw [h5, h6] at hC
      simp only at hC
      obtain ⟨rfl, hR3⟩ := hC
      cases e3 with
      | none => simpa [Step.Rel, Outcome.Rel] using hR3
      | some e => simpa [Step.Rel, Outcome.Rel] using hs.onLog e s3 w3 hR3
    · obtain ⟨rfl, rfl, hR2⟩ := hL
      have hRb := hs.onRollback _ _ (hs.onLog e s2 w2 hR2)
      dsimp only
      rcases h5 : d1.Rollback (d1.LogError e s2) with ⟨s3, e3⟩
      rcases h6 : d2.Rollback (d2.LogError e w2) with ⟨w3, e4⟩
      rw [h5, h6] at hRb
      simp only at hRb
      obtain ⟨rfl, hR3⟩ := hRb
      cases e3 with
      | none =>
        simp only
        split
        · simpa [Step.Rel] using hR3
        · simpa [Step.Rel, Outcome.Rel] using hR3
      | some e => simpa [Step.Rel, Outcome.Rel] using hs.onLog e s3 w3 hR3
    · simpa [Step.Rel, Outcome.Rel] using hL

/-- Related drivers give `Write` related outcomes. -/
theorem Write_sim {σ τ : Type} (R : σ → τ → Prop) (d1 : Driver σ) (d2 : Driver τ)
    (hs : Sim R d1 d2) (p : Plugin) :
    ∀ (l : List data) (s : σ) (w : τ), R s w →
      Outcome.Rel R (Write p d1 l s) (Write p d2 l w) := by
  intro l s
  refine Write_induct p d1
    (fun l s o => ∀ w, R s w → Outcome.Rel R o (Write p d2 l w)) ?_ ?_ l s
  · intro l s o h w hR
    have hA := attempt_sim R d1 d2 hs p l s w hR
    rw [h] at hA
    cases h2 : attempt p d2 l w with
    | final o1 =>
      rw [h2] at hA
      rw [Write_final p d2 l w o1 h2]
      simpa [Step.Rel] using hA
    | retry j w1 =>
      rw [h2] at hA
      simp [Step.Rel] at hA
  · intro l s i s1 h _ _ ih w hR
    have hA := attempt_sim R d1 d2 hs p l s w hR
    rw [h] at hA
    cases h2 : attempt p d2 l w with
    | final o1 =>
      rw [h2] at hA
      simp [Step.Rel] at hA
    | retry j w1 =>
      rw [h2] at hA
      simp only [Step.Rel] at hA
      obtain ⟨rfl, hR1⟩ := hA
      rw [Write_retry p d2 l w i w1 h2]
      exact ih w1 hR1

/-- Observing the calls does not change what the driver does. -/
theorem sim_traced {σ : Type} (drv : Driver σ) :
    Sim (fun (s : σ) (w : σ × List Call) => w.1 = s) drv (traced drv) where
  onBegin := by intro s w h; subst h; simp [traced_Begin]
  onExec := by intro q v s w h; subst h; simp [traced_Exec]
  onRollback := by intro s w h; subst h; simp [traced_Rollback]
  onCommit := by intro s w h; subst h; simp [traced_Commit]
  onLog := by intro e s w h; subst h; simp [traced_LogError]

/-- Calls recorded before the run stay in front of the calls of the run. -/
theorem sim_traced_prepended {σ : Type} (drv : Driver σ) (t : List Call) :
    Sim (fun (w w1 : σ × List Call) => w1.1 = w.1 ∧ w1.2 = t ++ w.2)
      (traced drv) (traced drv) where
  onBegin := by intro s w h; simp [traced_Begin, h.1, h.2]
  onExec := by intro q v s w h; simp [traced_Exec, h.1, h.2]
  onRollback := by intro s w h; simp [traced_Rollback, h.1, h.2]
  onCommit := by intro s w h; simp [traced_Commit, h.1, h.2]
  onLog := by intro e s w h; simp [traced_LogError, h.1, h.2]

/-- The observed run returns what the run returns. -/
theorem Write_of_traced {σ : Type} (p : Plugin) (drv : Driver σ) (l : List data) (s : σ)
    (t : List Call) (c : Nat) (e : Option GoError) (w : σ × List Call)
    (h : Write p (traced drv) l (s, t) = Outcome.ret c e w) :
    Write p drv l s = Outcome.ret c e w.1 := by
  have := Write_sim _ drv (traced drv) (sim_traced drv) p l s (s, t) rfl
  rw [h] at this
  cases h2 : Write p drv l s with
  | ret c1 e1 s1 =>
    rw [h2] at this
    simp only [Outcome.Rel] at this
    obtain ⟨rfl, rfl, rfl⟩ := this
    rfl
  | panic s1 =>
    rw [h2] at this
    simp [Outcome.Rel] at this

/-- The observed run of a returning call returns. -/
theorem traced_of_Write {σ : Type} (p : Plugin) (drv : Driver σ) (l : List data) (s : σ)
    (t : List Call) (c : Nat) (e : Option GoError) (s1 : σ)
    (h : Write p drv l s = Outcome.ret c e s1) :
    ∃ t1, Write p (traced drv) l (s, t) = Outcome.ret c e (s1, t1) := by
  have := Write_sim _ drv (traced drv) (sim_traced drv) p l s (s, t) rfl
  rw [h] at this
  cases h2 : Write p (traced drv) l (s, t) with
  | ret c1 e1 w1 =>
    rw [h2] at this
    simp only [Outcome.Rel] at this
    obtain ⟨rfl, rfl, rfl⟩ := this
    exact ⟨w1.2, rfl⟩
  | panic w1 =>
    rw [h2] at this
    simp [Outcome.Rel] at this

/-- The calls recorded by a run started with the calls `t` already recorded are
`t` followed by the calls of the run. -/
theorem traced_calls_prepended {σ : Type} (p : Plugin) (drv : Driver σ) (l : List data)
    (s : σ) (t : List Call) :
    (Write p (traced drv) l (s, t)).state.2 = t ++ callsOf p drv l s := by
  have := Write_sim _ (traced drv) (traced drv) (sim_traced_prepended drv t) p l (s, []) (s, t)
    (by simp)
  unfold callsOf
  cases h1 : Write p (traced drv) l (s, []) with
  | ret c e w =>
    cases h2 : Write p (traced drv) l (s, t) with
    | ret c1 e1 w1 =>
      rw [h1, h2] at this
      simp only [Outcome.Rel] at this
      simp [Outcome.state, this.2.2.2]
    | panic w1 =>
      rw [h1, h2] at this
      simp [Outcome.Rel] at this
  | panic w =>
    cases h2 : Write p (traced drv) l (s, t) with
    | ret c1 e1 w1 =>
      rw [h1, h2] at this
      simp [Outcome.Rel] at this
    | panic w1 =>
      rw [h1, h2] at this
      simp only [Outcome.Rel] at this
      simp [Outcome.state, this.2]

/-! ## The calls of a run -/

theorem FromBatch_mono (p : Plugin) (l l1 : List data) (c : Call)
    (hsub : ∀ d ∈ l, d ∈ l1) (h : FromBatch p l c) : FromBatch p l1 c := by
  rcases h with h | ⟨d, hd, q, err, hq, hc⟩
  · exact Or.inl h
  · exact Or.inr ⟨d, hsub d hd, q, err, hq, hc⟩

theorem insertLoop_traced_calls {σ : Type} (p : Plugin) (drv : Driver σ) :
    ∀ (l : List data) (i : Nat) (s : σ) (t : List Call),
      ∃ cs, (insertLoop p (traced drv) l i (s, t)).state.2 = t ++ cs ∧
        (∀ c ∈ cs, ExecOf p l c) ∧ cs.countP Call.isBegin = 0 := by
  intro l
  induction l with
  | nil =>
    intro i s t
    exact ⟨[], by simp [insertLoop, LoopResult.state], by simp, by simp⟩
  | cons d rest ih =>
    intro i s t
    simp only [insertLoop]
    cases hq : stmtOf p d with
    | none => exact ⟨[], by simp [LoopResult.state], by simp, by simp⟩
    | some q =>
      simp only [traced_Exec]
      rcases hE : drv.Exec q d.values s with ⟨s1, _ | e⟩
      · simp only
        obtain ⟨cs, h1, h2, h3⟩ := ih (i + 1) s1 (t ++ [Call.exec q d.values none])
        refine ⟨Call.exec q d.values none :: cs, by simp [h1], ?_, ?_⟩
        · intro c hc
          rcases List.mem_cons.1 hc with rfl | hc
          · exact ⟨d, by simp, q, none, hq, rfl⟩
          · obtain ⟨d1, hd1, r⟩ := h2 c hc
            exact ⟨d1, by simp [hd1], r⟩
        · simp [List.countP_cons, h3, Call.isBegin]
      · simp only
        refine ⟨[Call.exec q d.values (some e)], by simp [LoopResult.state], ?_, ?_⟩
        · intro c hc
          rw [List.mem_singleton] at hc
          subst hc
          exact ⟨d, by simp, q, some e, hq, rfl⟩
        · simp [List.countP_cons, Call.isBegin]

/-- One activation makes exactly one `Begin`, and its `Exec`s are of records
of the batch. -/
theorem attempt_traced_calls {σ : Type} (p : Plugin) (drv : Driver σ) (l : List data)
    (w : σ × List Call) :
    ∃ cs, (attempt p (traced drv) l w).state.2 = w.2 ++ cs ∧
      (∀ c ∈ cs, FromBatch p l c) ∧ cs.countP Call.isBegin = 1 := by
  unfold attempt
  simp only [traced_Begin]
  rcases hB : drv.Begin w.1 with ⟨s1, _ | e⟩
  · dsimp only
    obtain ⟨cs, h1, h2, h3⟩ := insertLoop_traced_calls p drv l 0 s1 (w.2 ++ [Call.begin none])
    rcases hL : insertLoop p (traced drv) l 0 (s1, w.2 ++ [Call.begin none]) with
      w2 | ⟨i, e, w2⟩ | w2
    · rw [hL] at h1
      simp only [LoopResult.state] at h1
      dsimp only
      simp only [traced_Commit]
      rcases hC : drv.Commit w2.1 with ⟨s3, _ | e⟩
      · refine ⟨Call.begin none :: cs ++ [Call.commit none],
          by simp [Step.state, Outcome.state, h1], ?_, ?_⟩
        · intro c hc
          simp only [List.cons_append, List.mem_cons, List.mem_append,
            List.mem_singleton, List.not_mem_nil, or_false] at hc
          rcases hc with rfl | hc | rfl
          · exact Or.inl (by simp)
          · exact Or.inr (h2 c hc)
          · exact Or.inl (by simp)
        · simp [List.countP_cons, List.countP_append, h3, Call.isBegin]
      · refine ⟨Call.begin none :: cs ++ [Call.commit (some e), Call.log e],
          by simp [Step.state, Outcome.state, h1, traced_LogError], ?_, ?_⟩
        · intro c hc
          simp only [List.cons_append, List.mem_cons, List.mem_append,
            List.not_mem_nil, or_false] at hc
          rcases hc with rfl | hc | rfl | rfl
          · exact Or.inl (by simp)
          · exact Or.inr (h2 c hc)
          · exact Or.inl (by simp)
          · exact Or.inl (by simp)
        · simp [List.countP_cons, List.countP_append, h3, Call.isBegin]
    · rw [hL] at h1
      simp only [LoopResult.state] at h1
      dsimp only
      simp only [traced_Rollback, traced_LogError]
      rcases hR : drv.Rollback (drv.LogError e w2.1) with ⟨s3, _ | r⟩
      · refine ⟨Call.begin none :: cs ++ [Call.log e, Call.rollback none], ?_, ?_, ?_⟩
        · dsimp only
          split <;> simp [Step.state, Outcome.state, h1]
        · intro c hc
          simp only [List.cons_append, List.mem_cons, List.mem_append,
            List.not_mem_nil, or_false] at hc
          rcases hc with rfl | hc | rfl | rfl
          · exact Or.inl (by simp)
          · exact Or.inr (h2 c hc)
          · exact Or.inl (by simp)
          · exact Or.inl (by simp)
        · simp [List.countP_cons, List.countP_append, h3, Call.isBegin]
      · refine ⟨Call.begin none :: cs ++ [Call.log e, Call.rollback (some r), Call.log r],
          by simp [Step.state, Outcome.state, h1], ?_, ?_⟩
        · intro c hc
          simp only [List.cons_append, List.mem_cons, List.mem_append,
            List.not_mem_nil, or_false] at hc
          rcases hc with rfl | hc | rfl | rfl | rfl
          · exact Or.inl (by simp)
          · exact Or.inr (h2 c hc)
          · exact Or.inl (by simp)
          · exact Or.inl (by simp)
          · exact Or.inl (by simp)
        · simp [List.countP_cons, List.countP_append, h3, Call.isBegin]
    · rw [hL] at h1
      simp only [LoopResult.state] at h1
      refine ⟨Call.begin none :: cs, by simp [Step.state, Outcome.state, h1], ?_, ?_⟩
      · intro c hc
        rcases List.mem_cons.1 hc with rfl | hc
        · exact Or.inl (by simp)
        · exact Or.inr (h2 c hc)
      · simp [List.countP_cons, h3, Call.isBegin]
  · refine ⟨[Call.begin (some e), Call.log e],
      by simp [Step.state, Outcome.state, traced_LogError], ?_, ?_⟩
    · intro c hc
      simp only [List.mem_cons, List.not_mem_nil, or_false] at hc
      rcases hc with rfl | rfl
      · exact Or.inl (by simp)
      · exact Or.inl (by simp)
    · simp [List.countP_cons, Call.isBegin]

/-- The calls of a run: every `Exec` is of a record of the batch, and `Begin` is
called at most `max 1 (len l)` times. -/
theorem Write_traced_calls {σ : Type} (p : Plugin) (drv : Driver σ) :
    ∀ (l : List data) (w : σ × List Call),
      ∃ cs, (Write p (traced drv) l w).state.2 = w.2 ++ cs ∧
        (∀ c ∈ cs, FromBatch p l c) ∧
        1 ≤ cs.countP Call.isBegin ∧ cs.countP Call.isBegin ≤ max 1 l.length := by
  refine Write_induct p (traced drv)
    (fun l w o => ∃ cs, o.state.2 = w.2 ++ cs ∧ (∀ c ∈ cs, FromBatch p l c) ∧
      1 ≤ cs.countP Call.isBegin ∧ cs.countP Call.isBegin ≤ max 1 l.length) ?_ ?_
  · intro l w o h
    obtain ⟨cs, h1, h2, h3⟩ := attempt_traced_calls p drv l w
    rw [h] at h1
    exact ⟨cs, h1, h2, by omega, by omega⟩
  · intro l w i w1 h hi hlt ih
    obtain ⟨cs, h1, h2, h3⟩ := attempt_traced_calls p drv l w
    rw [h] at h1
    simp only [Step.state] at h1
    obtain ⟨cs1, h4, h5, h6, h7⟩ := ih
    have hlen : (l.take i).length = i := by simp only [List.length_take]; omega
    rw [hlen] at h7
    refine ⟨cs ++ cs1, by rw [h4, h1, List.append_assoc], ?_, ?_, ?_⟩
    · intro c hc
      rcases List.mem_append.1 hc with hc | hc
      · exact h2 c hc
      · exact FromBatch_mono p _ l c (fun d hd => List.mem_of_mem_take hd) (h5 c hc)
    · rw [List.countP_append]; omega
    · rw [List.countP_append]; omega

/-! ## Success, failure of a later record, failure of the first record -/

/-- C1: when `Begin` succeeds, the `Exec` of every record succeeds and `Commit`
succeeds, `Write(l)` returns `(len(l), nil)`, and the calls made are one
`Begin`, one `Exec` per record in batch order and one `Commit`; `Rollback` is
not called.  The empty batch is included. -/
theorem Write_all_succeed {σ : Type} (p : Plugin) (drv : Driver σ) (l : List data)
    (s s1 s2 s3 : σ) (hB : drv.Begin s = (s1, none))
    (hE : runExecs p drv l s1 = some s2) (hC : drv.Commit s2 = (s3, none)) :
    Write p drv l s = Outcome.ret l.length none s3 ∧
      callsOf p drv l s = Call.begin none :: l.map (okExec p) ++ [Call.commit none] ∧
      (∀ err, Call.rollback err ∉ callsOf p drv l s) := by
  have hW : Write p drv l s = Outcome.ret l.length none s3 :=
    Write_final p drv l s _
      (attempt_commit_ok p drv l s s1 s2 s3 hB
        (insertLoop_done_of_runExecs p drv l 0 s1 s2 hE) hC)
  have hT : Write p (traced drv) l (s, []) =
      Outcome.ret l.length none
        (s3, Call.begin none :: l.map (okExec p) ++ [Call.commit none]) := by
    apply Write_final
    apply attempt_commit_ok p (traced drv) l (s, []) (s1, [Call.begin none])
      (s2, [Call.begin none] ++ l.map (okExec p))
    · simp [traced_Begin, hB]
    · exact insertLoop_done_of_runExecs p (traced drv) l 0 _ _
        (runExecs_traced p drv l s1 s2 _ hE)
    · simp [traced_Commit, hC]
  have hc : callsOf p drv l s =
      Call.begin none :: l.map (okExec p) ++ [Call.commit none] := by
    simp [callsOf, hT, Outcome.state]
  refine ⟨hW, hc, ?_⟩
  intro err hmem
  rw [hc] at hmem
  simp [okExec] at hmem

/-- C2: when `Begin` succeeds, the `Exec`s of records `0..k-1` succeed, the
`Exec` of record `k > 0` fails and the `Rollback` succeeds, `Write(l)` is the
result of `Write(l[0:k])` run from the state left by the rollback.  The calls
made after the rollback are exactly the calls of that `Write(l[0:k])`, and
every `Exec` among them is of one of the records `0..k-1`. -/
theorem Write_later_fails {σ : Type} (p : Plugin) (drv : Driver σ) (l : List data)
    (k : Nat) (hk0 : 0 < k) (hk : k < l.length) (s s1 s2 s3 s4 : σ) (q : String)
    (e : GoError) (hB : drv.Begin s = (s1, none))
    (hpre : runExecs p drv (l.take k) s1 = some s2) (hq : stmtOf p l[k] = some q)
    (hE : drv.Exec q l[k].values s2 = (s3, some e))
    (hR : drv.Rollback (drv.LogError e s3) = (s4, none)) :
    Write p drv l s = Write p drv (l.take k) s4 ∧
      callsOf p drv l s =
        Call.begin none :: (l.take k).map (okExec p) ++
          [Call.exec q l[k].values (some e), Call.log e, Call.rollback none] ++
          callsOf p drv (l.take k) s4 ∧
      (∀ c ∈ callsOf p drv (l.take k) s4, FromBatch p (l.take k) c) := by
  have hsplit : l = l.take k ++ l[k] :: l.drop (k + 1) := by
    rw [← List.drop_eq_getElem_cons hk, List.take_append_drop]
  have hlen : (l.take k).length = k := by
    simp only [List.length_take]; omega
  refine ⟨?_, ?_, ?_⟩
  · apply Write_retry
    apply attempt_later_failed p drv l s s1 s3 s4 k e hk0 hB _ hR
    have := insertLoop_failed_at p drv (l.take k) (l.drop (k + 1)) l[k] q e s1 s2 s3 hpre hq hE
    rw [← hsplit, hlen] at this
    exact this
  · have hT : Write p (traced drv) l (s, []) =
        Write p (traced drv) (l.take k)
          (s4, Call.begin none :: (l.take k).map (okExec p) ++
            [Call.exec q l[k].values (some e), Call.log e, Call.rollback none]) := by
      apply Write_retry
      apply attempt_later_failed p (traced drv) l (s, []) (s1, [Call.begin none])
        (s3, Call.begin none :: (l.take k).map (okExec p) ++
          [Call.exec q l[k].values (some e)])
        _ k e hk0
      · simp [traced_Begin, hB]
      · have := insertLoop_failed_at p (traced drv) (l.take k) (l.drop (k + 1)) l[k] q e
          (s1, [Call.begin none]) (s2, [Call.begin none] ++ (l.take k).map (okExec p))
          (s3, Call.begin none :: (l.take k).map (okExec p) ++
            [Call.exec q l[k].values (some e)])
          (runExecs_traced p drv _ s1 s2 _ hpre) hq (by simp [traced_Exec, hE])
        rw [← hsplit, hlen] at this
        exact this
      · simp [traced_Rollback, traced_LogError, hR]
    have hP := traced_calls_prepended p drv (l.take k) s4
      (Call.begin none :: (l.take k).map (okExec p) ++
        [Call.exec q l[k].values (some e), Call.log e, Call.rollback none])
    rw [← hT] at hP
    exact hP
  · obtain ⟨cs, h1, h2, -⟩ := Write_traced_calls p drv (l.take k) (s4, [])
    have : callsOf p drv (l.take k) s4 = cs := by simpa [callsOf] using h1
    rw [this]
    exact h2

/-- C3: when `Begin` succeeds, the `Exec` of record 0 fails and the `Rollback`
succeeds, `Write` of a non-empty batch returns `(1, nil)`; the calls made are
`Begin`, the failed `Exec`, the log entry and `Rollback`, so no `Commit` is made
and no row is persisted. -/
theorem Write_first_fails {σ : Type} (p : Plugin) (drv : Driver σ) (l : List data)
    (hl : l ≠ []) (s s1 s2 s3 : σ) (q : String) (e : GoError)
    (hB : drv.Begin s = (s1, none)) (hq : stmtOf p (l.head hl) = some q)
    (hE : drv.Exec q (l.head hl).values s1 = (s2, some e))
    (hR : drv.Rollback (drv.LogError e s2) = (s3, none)) :
    Write p drv l s = Outcome.ret 1 none s3 ∧
      callsOf p drv l s =
        [Call.begin none, Call.exec q (l.head hl).values (some e), Call.log e,
          Call.rollback none] ∧
      (∀ err, Call.commit err ∉ callsOf p drv l s) ∧
      persisted (callsOf p drv l s) = [] := by
  obtain ⟨d, rest, rfl⟩ := List.exists_cons_of_ne_nil hl
  simp only [List.head_cons] at hq hE
  have hW : Write p drv (d :: rest) s = Outcome.ret 1 none s3 := by
    apply Write_final
    apply attempt_first_failed p drv _ s s1 s2 s3 e hB _ hR
    simpa using insertLoop_failed_at p drv [] rest d q e s1 s1 s2 rfl hq hE
  have hT : Write p (traced drv) (d :: rest) (s, []) =
      Outcome.ret 1 none
        (s3, [Call.begin none, Call.exec q d.values (some e), Call.log e,
          Call.rollback none]) := by
    apply Write_final
    apply attempt_first_failed p (traced drv) _ (s, []) (s1, [Call.begin none])
      (s2, [Call.begin none, Call.exec q d.values (some e)]) _ e
    · simp [traced_Begin, hB]
    · have := insertLoop_failed_at p (traced drv) [] rest d q e
        (s1, [Call.begin none]) (s1, [Call.begin none])
        (s2, [Call.begin none, Call.exec q d.values (some e)]) rfl hq
        (by simp [traced_Exec, hE])
      simpa using this
    · simp [traced_Rollback, traced_LogError, hR]
  have hc : callsOf p drv (d :: rest) s =
      [Call.begin none, Call.exec q d.values (some e), Call.log e, Call.rollback none] := by
    simp [callsOf, hT, Outcome.state]
  refine ⟨hW, by simpa using hc, ?_, ?_⟩
  · intro err hmem
    rw [hc] at hmem
    simp at hmem
  · rw [hc]
    simp [persisted, persistedFrom]

/-! ## Bounds on the consumed count, forward progress, termination -/

theorem stmtOf_isSome (p : Plugin) (d : data) (h : d.values.length < p.spool.length) :
    ∃ q, stmtOf p d = some q := by
  unfold stmtOf
  cases hg : p.spool.get? d.values.length with
  | none =>
    rw [List.get?_eq_none] at hg
    omega
  | some ph => exact ⟨_, rfl⟩

theorem insertLoop_no_panic {σ : Type} (p : Plugin) (drv : Driver σ) :
    ∀ (l : List data) (i : Nat) (s s1 : σ), InRange p l →
      insertLoop p drv l i s ≠ LoopResult.panicked s1 := by
  intro l
  induction l with
  | nil => intro i s s1 _; simp [insertLoop]
  | cons d rest ih =>
    intro i s s1 hr
    obtain ⟨q, hq⟩ := stmtOf_isSome p d (hr d (by simp))
    simp only [insertLoop, hq]
    rcases hE : drv.Exec q d.values s with ⟨s2, _ | e⟩
    · exact ih (i + 1) s2 s1 (fun d1 hd1 => hr d1 (by simp [hd1]))
    · simp

/-- The results an activation can finish with. -/
theorem attempt_final_cases {σ : Type} (p : Plugin) (drv : Driver σ) (l : List data)
    (s : σ) (o : Outcome σ) (h : attempt p drv l s = Step.final o) :
    (∃ e s1, o = Outcome.ret 0 (some e) s1) ∨ (∃ s1, o = Outcome.ret l.length none s1) ∨
      (l ≠ [] ∧ ∃ s1, o = Outcome.ret 1 none s1) ∨
      (∃ s1 s2, drv.Begin s = (s1, none) ∧
        insertLoop p drv l 0 s1 = LoopResult.panicked s2 ∧ o = Outcome.panic s2) := by
  unfold attempt at h
  rcases hB : drv.Begin s with ⟨s1, _ | e⟩
  · simp only [hB] at h
    rcases hL : insertLoop p drv l 0 s1 with s2 | ⟨i, e, s2⟩ | s2
    · simp only [hL] at h
      rcases hC : drv.Commit s2 with ⟨s3, _ | e⟩
      · simp only [hC, Step.final.injEq] at h
        exact Or.inr (Or.inl ⟨s3, h.symm⟩)
      · simp only [hC, Step.final.injEq] at h
        exact Or.inl ⟨e, _, h.symm⟩
    · simp only [hL] at h
      rcases hR : drv.Rollback (drv.LogError e s2) with ⟨s3, _ | r⟩
      · simp only [hR] at h
        split at h
        · simp at h
        · rename_i hi
          have hb := insertLoop_failed_bound p drv l 0 s1 i e s2 hL
          simp only [Step.final.injEq] at h
          refine Or.inr (Or.inr (Or.inl ⟨?_, s3, h.symm⟩))
          intro hnil
          subst hnil
          simp at hb
      · simp only [hR, Step.final.injEq] at h
        exact Or.inl ⟨r, _, h.symm⟩
    · simp only [hL, Step.final.injEq] at h
      exact Or.inr (Or.inr (Or.inr ⟨s1, s2, rfl, hL, h.symm⟩))
  · simp only [hB, Step.final.injEq] at h
    exact Or.inl ⟨e, _, h.symm⟩

theorem attempt_no_panic {σ : Type} (p : Plugin) (drv : Driver σ) (l : List data)
    (s s1 : σ) (hr : InRange p l) : attempt p drv l s ≠ Step.final (Outcome.panic s1) := by
  intro h
  rcases attempt_final_cases p drv l s _ h with ⟨e, s2, h1⟩ | ⟨s2, h1⟩ | ⟨-, s2, h1⟩ |
    ⟨s2, s3, -, hL, -⟩
  · simp at h1
  · simp at h1
  · simp at h1
  · exact insertLoop_no_panic p drv l 0 s2 s3 hr hL

/-- An activation of the observed driver that returns an error has recorded a
failed `Begin`, `Rollback` or `Commit`. -/
theorem attempt_traced_err {σ : Type} (p : Plugin) (drv : Driver σ) (l : List data)
    (w w1 : σ × List Call) (c : Nat) (e : GoError)
    (h : attempt p (traced drv) l w = Step.final (Outcome.ret c (some e) w1)) :
    ∃ call ∈ w1.2, call.txFailed = true := by
  unfold attempt at h
  simp only [traced_Begin] at h
  rcases hB : drv.Begin w.1 with ⟨s1, _ | e0⟩
  · simp only [hB] at h
    rcases hL : insertLoop p (traced drv) l 0 (s1, w.2 ++ [Call.begin none]) with
      w2 | ⟨i, e1, w2⟩ | w2
    · simp only [hL, traced_Commit] at h
      rcases hC : drv.Commit w2.1 with ⟨s3, _ | e2⟩
      · simp [hC] at h
      · simp only [hC, traced_LogError, Step.final.injEq, Outcome.ret.injEq] at h
        obtain ⟨-, -, rfl⟩ := h
        exact ⟨Call.commit (some e2), by simp, rfl⟩
    · simp only [hL, traced_Rollback, traced_LogError] at h
      rcases hR : drv.Rollback (drv.LogError e1 w2.1) with ⟨s3, _ | r⟩
      · simp only [hR] at h
        split at h <;> simp at h
      · simp only [hR, Step.final.injEq, Outcome.ret.injEq] at h
        obtain ⟨-, -, rfl⟩ := h
        exact ⟨Call.rollback (some r), by simp, rfl⟩
    · simp [hL] at h
  · simp only [hB, traced_LogError, Step.final.injEq, Outcome.ret.injEq] at h
    obtain ⟨-, -, rfl⟩ := h
    exact ⟨Call.begin (some e0), by simp, rfl⟩

/-- C4: whatever the driver does, a consumed count returned by `Write(l)` is at
most `len(l)` (and at least 0, being a natural number); and `Write` does return
when every record has an entry in the placeholder cache. -/
theorem Write_consumed_le {σ : Type} (p : Plugin) (drv : Driver σ) (l : List data) (s : σ) :
    (∀ c e s1, Write p drv l s = Outcome.ret c e s1 → 0 ≤ c ∧ c ≤ l.length) ∧
      (InRange p l → ∃ c e s1, Write p drv l s = Outcome.ret c e s1 ∧ c ≤ l.length) := by
  refine Write_induct p drv
    (fun l _ o => (∀ c e s1, o = Outcome.ret c e s1 → 0 ≤ c ∧ c ≤ l.length) ∧
      (InRange p l → ∃ c e s1, o = Outcome.ret c e s1 ∧ c ≤ l.length)) ?_ ?_ l s
  · intro l s o h
    have hcases := attempt_final_cases p drv l s o h
    have hlen : l ≠ [] → 1 ≤ l.length := fun hne =>
      Nat.succ_le_of_lt (List.length_pos.2 hne)
    constructor
    · intro c e s1 ho
      subst ho
      rcases hcases with ⟨e1, s2, h1⟩ | ⟨s2, h1⟩ | ⟨hne, s2, h1⟩ | ⟨s2, s3, -, -, h1⟩
      · simp only [Outcome.ret.injEq] at h1; omega
      · simp only [Outcome.ret.injEq] at h1; omega
      · simp only [Outcome.ret.injEq] at h1
        have := hlen hne
        omega
      · simp at h1
    · intro hr
      rcases hcases with ⟨e1, s2, h1⟩ | ⟨s2, h1⟩ | ⟨hne, s2, h1⟩ | ⟨s2, s3, -, -, h1⟩
      · exact ⟨0, some e1, s2, h1, Nat.zero_le _⟩
      · exact ⟨l.length, none, s2, h1, Nat.le_refl _⟩
      · exact ⟨1, none, s2, h1, hlen hne⟩
      · subst h1
        exact absurd h (attempt_no_panic p drv l s s3 hr)
  · intro l s i s1 _ _ hlt ih
    have hlen : (l.take i).length = i := by simp only [List.length_take]; omega
    rw [hlen] at ih
    constructor
    · intro c e s2 ho
      have := ih.1 c e s2 ho
      omega
    · intro hr
      obtain ⟨c, e, s2, ho, hc⟩ := ih.2 (fun d hd => hr d (List.mem_of_mem_take hd))
      exact ⟨c, e, s2, ho, by omega⟩

/-- C5: forward progress.  For a non-empty batch whose records have an entry in
the placeholder cache, if no `Begin`, `Rollback` or `Commit` of the call returns
an error (whatever the `Exec`s do), `Write(l)` returns a nil error and a
consumed count `c` with `1 ≤ c ≤ len(l)`. -/
theorem Write_forward_progress {σ : Type} (p : Plugin) (drv : Driver σ) (l : List data)
    (s : σ) (hl : l ≠ []) (hr : InRange p l)
    (hok : ∀ call ∈ callsOf p drv l s, call.txFailed = false) :
    ∃ c s1, Write p drv l s = Outcome.ret c none s1 ∧ 1 ≤ c ∧ c ≤ l.length := by
  have key := Write_induct p (traced drv)
    (fun l _ o => l ≠ [] → InRange p l → (∀ call ∈ o.state.2, call.txFailed = false) →
      ∃ c w1, o = Outcome.ret c none w1 ∧ 1 ≤ c ∧ c ≤ l.length) ?_ ?_ l (s, []) hl hr hok
  · obtain ⟨c, w1, h1, h2, h3⟩ := key
    exact ⟨c, w1.1, Write_of_traced p drv l s [] c none w1 h1, h2, h3⟩
  · intro l w o h hne hr hok
    have hlen : 1 ≤ l.length := Nat.succ_le_of_lt (List.length_pos.2 hne)
    rcases attempt_final_cases p (traced drv) l w o h with
      ⟨e1, w2, h1⟩ | ⟨w2, h1⟩ | ⟨-, w2, h1⟩ | ⟨w2, w3, -, -, h1⟩
    · subst h1
      obtain ⟨call, hmem, hf⟩ := attempt_traced_err p drv l w w2 0 e1 h
      have := hok call (by simpa [Outcome.state] using hmem)
      rw [hf] at this
      cases this
    · exact ⟨l.length, w2, h1, hlen, Nat.le_refl _⟩
    · exact ⟨1, w2, h1, Nat.le_refl _, hlen⟩
    · subst h1
      exact absurd h (attempt_no_panic p (traced drv) l w w3 hr)
  · intro l w i w1 _ hi hlt ih _ hr hok
    have hlen : (l.take i).length = i := by simp only [List.length_take]; omega
    have hne : l.take i ≠ [] := by
      intro h0
      rw [h0] at hlen
      simp at hlen
      omega
    obtain ⟨c, w2, h1, h2, h3⟩ :=
      ih hne (fun d hd => hr d (List.mem_of_mem_take hd)) hok
    rw [hlen] at h3
    exact ⟨c, w2, h1, h2, by omega⟩

/-- C6: `Write` terminates.  An activation either finishes with the result of
`Write`, or calls `Write(l[0:i])` on a non-empty, strictly shorter prefix
(`0 < i < len(l)`) whose result is the result of `Write`; a failure at index 0
finishes the activation; and the number of activations (one `Begin` each) is at
most `max 1 (len l)`, so at most `len(l)` of them are recursive. -/
theorem Write_terminates {σ : Type} (p : Plugin) (drv : Driver σ) (l : List data) (s : σ) :
    (∀ o, attempt p drv l s = Step.final o → Write p drv l s = o) ∧
      (∀ i s1, attempt p drv l s = Step.retry i s1 →
        0 < i ∧ i < l.length ∧ l.take i ≠ [] ∧ (l.take i).length < l.length ∧
          Write p drv l s = Write p drv (l.take i) s1) ∧
      (∀ s1 e s2, drv.Begin s = (s1, none) →
        insertLoop p drv l 0 s1 = LoopResult.failed 0 e s2 →
          ∃ o, attempt p drv l s = Step.final o) ∧
      1 ≤ (callsOf p drv l s).countP Call.isBegin ∧
      (callsOf p drv l s).countP Call.isBegin ≤ max 1 l.length ∧
      (callsOf p drv l s).countP Call.isBegin - 1 ≤ l.length := by
  refine ⟨fun o h => Write_final p drv l s o h, ?_, ?_, ?_⟩
  · intro i s1 h
    have hb := attempt_retry_bound p drv l s i s1 h
    have hlen : (l.take i).length = i := by simp only [List.length_take]; omega
    refine ⟨hb.1, hb.2, ?_, by omega, Write_retry p drv l s i s1 h⟩
    intro h0
    rw [h0] at hlen
    simp at hlen
    omega
  · intro s1 e s2 hB hL
    rcases hR : drv.Rollback (drv.LogError e s2) with ⟨s3, _ | r⟩
    · exact ⟨_, attempt_first_failed p drv l s s1 s2 s3 e hB hL hR⟩
    · exact ⟨_, attempt_rollback_err p drv l s s1 s2 s3 0 e r hB hL hR⟩
  · obtain ⟨cs, h1, -, h3, h4⟩ := Write_traced_calls p drv l (s, [])
    have : callsOf p drv l s = cs := by simpa [callsOf] using h1
    rw [this]
    exact ⟨h3, h4, by omega⟩

/-! ## The theorems on a concrete batch -/

theorem Write_all_succeed_witness :
    Write demoPlugin (storeDriver hasNull) [rowA, rowB] emptyStore =
        Outcome.ret 2 none
          { rows := [(stmtA, [Value.int 1]), (stmtB, [Value.str "z"])], pending := [] } ∧
      callsOf demoPlugin (storeDriver hasNull) [rowA, rowB] emptyStore =
        [Call.begin none, Call.exec stmtA [Value.int 1] none,
          Call.exec stmtB [Value.str "z"] none, Call.commit none] ∧
      (∀ err, Call.rollback err ∉
        callsOf demoPlugin (storeDriver hasNull) [rowA, rowB] emptyStore) :=
  Write_all_succeed demoPlugin (storeDriver hasNull) [rowA, rowB] emptyStore emptyStore
    { rows := [], pending := [(stmtA, [Value.int 1]), (stmtB, [Value.str "z"])] }
    { rows := [(stmtA, [Value.int 1]), (stmtB, [Value.str "z"])], pending := [] }
    (by decide) (by decide) (by decide)

theorem Write_later_fails_witness :
    Write demoPlugin (storeDriver hasNull) [rowA, rowB, rowBad, rowA] emptyStore =
        Write demoPlugin (storeDriver hasNull) [rowA, rowB] emptyStore ∧
      callsOf demoPlugin (storeDriver hasNull) [rowA, rowB, rowBad, rowA] emptyStore =
        [Call.begin none, Call.exec stmtA [Value.int 1] none,
          Call.exec stmtB [Value.str "z"] none,
          Call.exec stmtBad [Value.int 2, Value.null] (some { msg := "rejected" }),
          Call.log { msg := "rejected" }, Call.rollback none] ++
          callsOf demoPlugin (storeDriver hasNull) [rowA, rowB] emptyStore ∧
      (∀ c ∈ callsOf demoPlugin (storeDriver hasNull) [rowA, rowB] emptyStore,
        FromBatch demoPlugin [rowA, rowB] c) :=
  Write_later_fails demoPlugin (storeDriver hasNull) [rowA, rowB, rowBad, rowA] 2
    (by decide) (by decide) emptyStore emptyStore
    { rows := [], pending := [(stmtA, [Value.int 1]), (stmtB, [Value.str "z"])] }
    { rows := [], pending := [(stmtA, [Value.int 1]), (stmtB, [Value.str "z"])] }
    emptyStore stmtBad { msg := "rejected" } (by decide) (by decide) (by decide)
    (by decide) (by decide)

theorem Write_first_fails_witness :
    Write demoPlugin (storeDriver hasNull) [rowBad, rowA] emptyStore =
        Outcome.ret 1 none emptyStore ∧
      callsOf demoPlugin (storeDriver hasNull) [rowBad, rowA] emptyStore =
        [Call.begin none,
          Call.exec stmtBad [Value.int 2, Value.null] (some { msg := "rejected" }),
          Call.log { msg := "rejected" }, Call.rollback none] ∧
      (∀ err, Call.commit err ∉
        callsOf demoPlugin (storeDriver hasNull) [rowBad, rowA] emptyStore) ∧
      persisted (callsOf demoPlugin (storeDriver hasNull) [rowBad, rowA] emptyStore) = [] :=
  Write_first_fails demoPlugin (storeDriver hasNull) [rowBad, rowA] (by decide)
    emptyStore emptyStore emptyStore emptyStore stmtBad { msg := "rejected" }
    (by decide) (by decide) (by decide) (by decide)

theorem Write_consumed_le_witness :
    ∃ c e s1, Write demoPlugin (storeDriver hasNull) [rowA, rowB, rowBad, rowA] emptyStore =
      Outcome.ret c e s1 ∧ c ≤ 4 :=
  (Write_consumed_le demoPlugin (storeDriver hasNull) [rowA, rowB, rowBad, rowA]
    emptyStore).2 (by decide)

theorem Write_forward_progress_witness :
    ∃ c s1, Write demoPlugin (storeDriver hasNull) [rowA, rowB, rowBad, rowA] emptyStore =
      Outcome.ret c none s1 ∧ 1 ≤ c ∧ c ≤ 4 :=
  Write_forward_progress demoPlugin (storeDriver hasNull) [rowA, rowB, rowBad, rowA]
    emptyStore (by decide) (by decide) (by decide)

theorem Write_terminates_witness :
    0 < 2 ∧ 2 < 4 ∧ [rowA, rowB] ≠ [] ∧ [rowA, rowB].length < 4 ∧
      Write demoPlugin (storeDriver hasNull) [rowA, rowB, rowBad, rowA] emptyStore =
        Write demoPlugin (storeDriver hasNull) [rowA, rowB] emptyStore :=
  (Write_terminates demoPlugin (storeDriver hasNull) [rowA, rowB, rowBad, rowA]
    emptyStore).2.1 2 emptyStore (by decide)

/-! ## The placeholder cache -/

theorem intercalate_go_append (sep : String) :
    ∀ (r : List String) (acc x : String),
      String.intercalate.go (acc ++ x) sep r = acc ++ String.intercalate.go x sep r := by
  intro r
  induction r with
  | nil => intro acc x; rfl
  | cons c r ih =>
    intro acc x
    simp only [String.intercalate.go]
    rw [String.append_assoc acc x sep, String.append_assoc acc (x ++ sep) c, ih]

theorem intercalate_cons_cons (sep a b : String) (r : List String) :
    String.intercalate sep (a :: b :: r) = a ++ sep ++ String.intercalate sep (b :: r) := by
  simp only [String.intercalate, String.intercalate.go]
  rw [intercalate_go_append]

theorem intercalate_concat (sep : String) :
    ∀ (xs : List String) (x : String), xs ≠ [] →
      String.intercalate sep (xs ++ [x]) = String.intercalate sep xs ++ sep ++ x := by
  intro xs
  induction xs with
  | nil => intro x h; exact absurd rfl h
  | cons a xs ih =>
    intro x _
    cases xs with
    | nil => simp [String.intercalate, String.intercalate.go]
    | cons b r =>
      rw [List.cons_append, List.cons_append, intercalate_cons_cons, ← List.cons_append,
        ih x (by simp), intercalate_cons_cons]
      simp only [String.append_assoc]

theorem markers_succ (n : Nat) (h : 1 ≤ n) :
    markers (n + 1) = markers n ++ ",$" ++ toString (n + 1) := by
  unfold markers
  rw [List.range'_concat, List.map_append, List.map_singleton, intercalate_concat]
  · have : (1 + 1 * n) = n + 1 := by omega
    rw [this, String.append_assoc, String.append_assoc]
    rfl
  · cases n with
    | zero => omega
    | succ k => simp [List.range'_succ]

theorem initLoop_spec :
    ∀ (k i : Nat) (spool : List String), 2 ≤ i → spool = (List.range i).map markers →
      initLoop k i spool = (List.range (i + k)).map markers := by
  intro k
  induction k with
  | zero => intro i spool _ h; simpa [initLoop] using h
  | succ k ih =>
    intro i spool hi h
    simp only [initLoop]
    rw [ih (i + 1) _ (by omega)]
    · congr 2; omega
    · have hget : spool.getD (i - 1) "" = markers (i - 1) := by
        rw [h, List.getD_eq_getElem?_getD, List.getElem?_map, List.getElem?_range (by omega)]
        rfl
      rw [hget, List.range_succ, List.map_append, List.map_singleton, ← h]
      congr 2
      have := markers_succ (i - 1) (by omega)
      have h1 : i - 1 + 1 = i := by omega
      rw [h1] at this
      exact this.symm

theorem Init_spool (conf : Config) :
    (Init conf).spool = (List.range (2 + (conf.Mapping.length - 1))).map markers := by
  unfold Init
  simp only
  exact initLoop_spec _ 2 _ (by omega) (by decide)

theorem markers_ne_empty (n : Nat) (h : 1 ≤ n) : markers n ≠ "" := by
  obtain ⟨k, rfl⟩ : ∃ k, n = k + 1 := ⟨n - 1, by omega⟩
  cases k with
  | zero => decide
  | succ k =>
    rw [markers_succ (k + 1) (by omega)]
    intro h0
    have := congrArg String.data h0
    simp at this

/-- C7: after `Init` on a mapping of size `m`, for every `n` with `1 ≤ n ≤ m` the
cache entry `spool[n]` exists and is the string `$1,$2,...,$n`: the `n` markers
in ascending order from 1, joined by single commas (hence no leading or
trailing comma), and it is not the empty string. -/
theorem Init_spool_markers (conf : Config) (n : Nat) (h1 : 1 ≤ n)
    (hm : n ≤ conf.Mapping.length) :
    (Init conf).spool.get? n = some (markers n) ∧
      markers n = String.intercalate ","
        ((List.range' 1 n).map (fun i => "$" ++ toString i)) ∧
      ((List.range' 1 n).map (fun i => "$" ++ toString i)).length = n ∧
      markers n ≠ "" := by
  refine ⟨?_, rfl, by simp, markers_ne_empty n h1⟩
  rw [Init_spool, List.get?_eq_getElem?, List.getElem?_map, List.getElem?_range (by omega)]
  rfl

theorem Init_spool_markers_witness :
    (Init { URI := "", Table := "t",
            Mapping := [("a", "x"), ("b", "y"), ("c", "@tag")] }).spool.get? 3 =
      some "$1,$2,$3" :=
  (Init_spool_markers
    { URI := "", Table := "t", Mapping := [("a", "x"), ("b", "y"), ("c", "@tag")] }
    3 (by decide) (by decide)).1.trans (by decide)

/-! ## `Encode` -/

theorem resolve_isSome (ev : Event) (rname : String) :
    (resolve ev rname).isSome = (isSentinel rname || hasField ev rname) := by
  unfold resolve isSentinel hasField
  by_cases h1 : rname = "@tag" ∨ rname = "_tag"
  · rw [if_pos h1]
    have : rname = "@tag" ∨ rname = "_tag" ∨ rname = "@timestamp" ∨ rname = "_timestamp" := by
      tauto
    simp [this]
  · rw [if_neg h1]
    by_cases h2 : rname = "@timestamp" ∨ rname = "_timestamp"
    · rw [if_pos h2]
      have : rname = "@tag" ∨ rname = "_tag" ∨ rname = "@timestamp" ∨ rname = "_timestamp" := by
        tauto
      simp [this]
    · rw [if_neg h2]
      have : ¬ (rname = "@tag" ∨ rname = "_tag" ∨ rname = "@timestamp" ∨ rname = "_timestamp") := by
        tauto
      rw [Bool.eq_iff_iff]
      simp only [this, decide_False, Bool.false_or, List.lookup_isSome_iff, decide_eq_true_eq,
        List.mem_map]
      constructor
      · rintro ⟨q, hq, hk⟩
        exact ⟨q, hq, (eq_of_beq hk).symm⟩
      · rintro ⟨q, hq, hk⟩
        exact ⟨q, hq, by simp [hk]⟩

theorem resolve_eq_none (ev : Event) (entry : String × String)
    (h : resolves ev entry = false) : resolve ev entry.2 = none := by
  have := resolve_isSome ev entry.2
  unfold resolves at h
  rw [h] at this
  cases hr : resolve ev entry.2 with
  | none => rfl
  | some v => rw [hr] at this; simp at this

theorem resolve_eq_some (ev : Event) (entry : String × String)
    (h : resolves ev entry = true) : ∃ v, resolve ev entry.2 = some v := by
  have := resolve_isSome ev entry.2
  unfold resolves at h
  rw [h] at this
  cases hr : resolve ev entry.2 with
  | none => rw [hr] at this; simp at this
  | some v => exact ⟨v, rfl⟩

/-- The loop of `Encode`: the values of the resolving entries are appended to
the record and their column names, each with a comma, to the buffer. -/
theorem encode_fold (ev : Event) :
    ∀ (order : List (String × String)) (d : data) (buf : String),
      order.foldl (encodeStep ev) (d, buf) =
        ({ d with values := d.values ++ order.filterMap (fun e => resolve ev e.2) },
          buf ++ withCommas ((emitted order ev).map Prod.fst)) := by
  intro order
  induction order with
  | nil => intro d buf; simp [emitted, withCommas]
  | cons e rest ih =>
    intro d buf
    rw [List.foldl_cons]
    by_cases h : resolves ev e = true
    · obtain ⟨v, hv⟩ := resolve_eq_some ev e h
      have hstep : encodeStep ev (d, buf) e = (d.add v, buf ++ e.1 ++ ",") := by
        simp [encodeStep, hv]
      rw [hstep, ih]
      simp [emitted, List.filter_cons, h, List.filterMap_cons, hv, data.add, withCommas,
        String.append_assoc]
    · have h0 : resolves ev e = false := by simpa using h
      have hv := resolve_eq_none ev e h0
      have hstep : encodeStep ev (d, buf) e = (d, buf) := by
        simp [encodeStep, hv]
      rw [hstep, ih]
      simp [emitted, List.filter_cons, h0, List.filterMap_cons, hv]

theorem withCommas_eq (c : String) (cs : List String) :
    withCommas (c :: cs) = String.intercalate "," (c :: cs) ++ "," := by
  induction cs generalizing c with
  | nil => simp [withCommas, String.intercalate, String.intercalate.go]
  | cons b r ih =>
    rw [withCommas, ih, intercalate_cons_cons]
    simp only [String.append_assoc]

theorem extract_drop_comma (s : String) :
    (s ++ ",").extract 0 ⟨(s ++ ",").utf8ByteSize - 1⟩ = s := by
  have h := String.extract_of_valid [] s.data [',']
  have hs : (⟨[] ++ s.data ++ [',']⟩ : String) = s ++ "," := by
    apply String.ext
    simp
  rw [hs] at h
  have hsize : (s ++ ",").utf8ByteSize - 1 = String.utf8Len [] + String.utf8Len s.data := by
    have : (s ++ ",").utf8ByteSize = String.utf8Len (s.data ++ [',']) := rfl
    have h1 : String.utf8Len [','] = 1 := by decide
    rw [this, String.utf8Len_append, h1]
    simp
  rw [hsize]
  exact h

theorem Encode_eq (order : List (String × String)) (ev : Event) :
    Encode order ev =
      if emitted order ev = [] then (none, none)
      else (some { columns := String.intercalate "," ((emitted order ev).map Prod.fst)
                   values := order.filterMap (fun e => resolve ev e.2) }, none) := by
  unfold Encode
  simp only [encode_fold, String.empty_append, List.nil_append]
  cases hcols : emitted order ev with
  | nil =>
    have : "".utf8ByteSize = 0 := rfl
    simp [withCommas, this]
  | cons e rest =>
    have hne : (withCommas (List.map Prod.fst (e :: rest))).utf8ByteSize ≠ 0 := by
      rw [List.map_cons, withCommas_eq]
      have : ∀ s : String, (s ++ ",").utf8ByteSize = String.utf8Len (s.data ++ [',']) :=
        fun _ => rfl
      have h1 : String.utf8Len [','] = 1 := by decide
      rw [this, String.utf8Len_append, h1]
      omega
    rw [if_neg hne, if_neg (by simp)]
    rw [List.map_cons, withCommas_eq, extract_drop_comma]

theorem values_aligned (ev : Event) :
    ∀ (order : List (String × String)),
      (order.filterMap (fun e => resolve ev e.2)).map some =
        (emitted order ev).map (fun e => resolve ev e.2) := by
  intro order
  induction order with
  | nil => simp [emitted]
  | cons e rest ih =>
    unfold emitted at ih ⊢
    by_cases h : resolves ev e = true
    · obtain ⟨v, hv⟩ := resolve_eq_some ev e h
      simp [List.filterMap_cons, hv, List.filter_cons, h, ih]
    · have h0 : resolves ev e = false := by simpa using h
      have hv := resolve_eq_none ev e h0
      simp [List.filterMap_cons, hv, List.filter_cons, h0, ih]

theorem intercalate_data (names : List String) :
    (String.intercalate "," names).data = [','].intercalate (names.map String.data) := by
  induction names with
  | nil => rfl
  | cons a r ih =>
    cases r with
    | nil => simp [String.intercalate, String.intercalate.go, List.intercalate]
    | cons b r =>
      rw [intercalate_cons_cons, String.data_append, String.data_append, ih]
      simp [List.intercalate, List.intersperse_cons_cons]

/-- C8: skip property.  An entry whose selector is neither a sentinel nor a key
of the event's fields contributes nothing: `Encode` gives the same result with
the entry removed, and the entry is not among the emitted ones.  The columns of
a returned record are the column names of entries whose selector is a sentinel
or a key of the event's fields, with one value for each. -/
theorem Encode_skips_absent (ev : Event) (pre post : List (String × String))
    (entry : String × String) (hs : isSentinel entry.2 = false)
    (hk : hasField ev entry.2 = false) :
    Encode (pre ++ entry :: post) ev = Encode (pre ++ post) ev ∧
      entry ∉ emitted (pre ++ entry :: post) ev ∧
      emitted (pre ++ entry :: post) ev = emitted (pre ++ post) ev ∧
      (∀ d, (Encode (pre ++ entry :: post) ev).1 = some d →
        d.columns = String.intercalate "," ((emitted (pre ++ post) ev).map Prod.fst) ∧
          d.values.length = (emitted (pre ++ post) ev).length ∧
          ∀ e ∈ emitted (pre ++ post) ev,
            e ∈ pre ++ post ∧ (isSentinel e.2 = true ∨ hasField ev e.2 = true)) := by
  have hres : resolves ev entry = false := by simp [resolves, hs, hk]
  have hem : emitted (pre ++ entry :: post) ev = emitted (pre ++ post) ev := by
    simp [emitted, List.filter_append, List.filter_cons, hres]
  have hval : (pre ++ entry :: post).filterMap (fun e => resolve ev e.2) =
      (pre ++ post).filterMap (fun e => resolve ev e.2) := by
    simp [List.filterMap_append, List.filterMap_cons, resolve_eq_none ev entry hres]
  have hEnc : Encode (pre ++ entry :: post) ev = Encode (pre ++ post) ev := by
    rw [Encode_eq, Encode_eq, hem, hval]
  refine ⟨hEnc, ?_, hem, ?_⟩
  · intro hmem
    have := (List.mem_filter.1 hmem).2
    rw [hres] at this
    cases this
  · intro d hd
    rw [hEnc, Encode_eq] at hd
    split at hd
    · simp at hd
    · simp only [Option.some.injEq] at hd
      subst hd
      refine ⟨rfl, ?_, ?_⟩
      · have := congrArg List.length (values_aligned ev (pre ++ post))
        simpa using this
      · intro e he
        have h2 := List.mem_filter.1 he
        refine ⟨h2.1, ?_⟩
        have h3 := h2.2
        simp only [resolves, Bool.or_eq_true] at h3
        exact h3

theorem Encode_skips_absent_witness :
    Encode [("a", "x"), ("b", "missing"), ("c", "@tag")]
        { Tag := "app", Time := { unixNano := 7 }, Record := [("x", Value.int 1)] } =
      (some { columns := "a,c", values := [Value.int 1, Value.str "app"] }, none) :=
  (Encode_skips_absent
    { Tag := "app", Time := { unixNano := 7 }, Record := [("x", Value.int 1)] }
    [("a", "x")] [("c", "@tag")] ("b", "missing") (by decide) (by decide)).1.trans (by decide)

/-- C9: when no entry of the mapping resolves (the mapping is empty, or every
selector is a non-sentinel key absent from the event's fields), `Encode`
returns the nil record and a nil error. -/
theorem Encode_absent (order : List (String × String)) (ev : Event)
    (h : ∀ e ∈ order, isSentinel e.2 = false ∧ hasField ev e.2 = false) :
    Encode order ev = (none, none) := by
  have hem : emitted order ev = [] := by
    unfold emitted
    rw [List.filter_eq_nil_iff]
    intro e he
    simp [resolves, (h e he).1, (h e he).2]
  rw [Encode_eq, if_pos hem]

theorem Encode_absent_witness :
    Encode [("a", "x"), ("b", "y")]
        { Tag := "app", Time := { unixNano := 7 }, Record := [("z", Value.int 1)] } =
      (none, none) :=
  Encode_absent [("a", "x"), ("b", "y")]
    { Tag := "app", Time := { unixNano := 7 }, Record := [("z", Value.int 1)] } (by decide)

/-- C10: positional alignment.  When at least one entry resolves, `Encode`
returns a record whose `columns` is the comma-join (no trailing comma) of the
column names of the resolving entries in iteration order, and whose `values`
are the values these entries resolve to, in the same order; the two have the
same number of items, and when no column name holds a comma, splitting
`columns` at the commas gives back these column names. -/
theorem Encode_aligned (order : List (String × String)) (ev : Event)
    (h : ∃ e ∈ order, resolves ev e = true) :
    ∃ d, Encode order ev = (some d, none) ∧
      d.columns = String.intercalate "," ((emitted order ev).map Prod.fst) ∧
      d.values.map some = (emitted order ev).map (fun e => resolve ev e.2) ∧
      d.values.length = (emitted order ev).length ∧
      ((∀ e ∈ emitted order ev, ',' ∉ e.1.data) →
        d.columns.data.splitOn ',' = (emitted order ev).map (fun e => e.1.data) ∧
          (d.columns.data.splitOn ',').length = d.values.length) := by
  obtain ⟨e0, he0, hr0⟩ := h
  have hne : emitted order ev ≠ [] := by
    intro hnil
    have : e0 ∈ emitted order ev := List.mem_filter.2 ⟨he0, hr0⟩
    rw [hnil] at this
    cases this
  have hlen : (order.filterMap (fun e => resolve ev e.2)).length =
      (emitted order ev).length := by
    have := congrArg List.length (values_aligned ev order)
    simpa using this
  refine ⟨_, by rw [Encode_eq, if_neg hne], rfl, values_aligned ev order, hlen, ?_⟩
  intro hcomma
  have hsplit : (String.intercalate "," ((emitted order ev).map Prod.fst)).data.splitOn ',' =
      (emitted order ev).map (fun e => e.1.data) := by
    rw [intercalate_data, List.splitOn_intercalate]
    · simp
    · intro l hl
      simp only [List.map_map, List.mem_map, Function.comp] at hl
      obtain ⟨e, he, rfl⟩ := hl
      exact hcomma e he
    · simpa using hne
  refine ⟨hsplit, ?_⟩
  dsimp only
  rw [hsplit, List.length_map, hlen]

theorem Encode_aligned_witness :
    ∃ d, Encode [("c", "@tag"), ("b", "missing"), ("a", "x")]
          { Tag := "app", Time := { unixNano := 7 }, Record := [("x", Value.int 1)] } =
        (some d, none) ∧
      d.columns = "c,a" ∧ d.values = [Value.str "app", Value.int 1] := by
  obtain ⟨d, h1, -⟩ := Encode_aligned [("c", "@tag"), ("b", "missing"), ("a", "x")]
    { Tag := "app", Time := { unixNano := 7 }, Record := [("x", Value.int 1)] }
    ⟨("c", "@tag"), by decide, by decide⟩
  refine ⟨d, h1, ?_⟩
  have h2 : Encode [("c", "@tag"), ("b", "missing"), ("a", "x")]
      { Tag := "app", Time := { unixNano := 7 }, Record := [("x", Value.int 1)] } =
      (some { columns := "c,a", values := [Value.str "app", Value.int 1] }, none) := by
    decide
  rw [h2] at h1
  simp only [Prod.mk.injEq, Option.some.injEq, and_true] at h1
  subst h1
  exact ⟨rfl, rfl⟩

/-! ## The observed loop -/

theorem insertLoop_traced_done {σ : Type} (p : Plugin) (drv : Driver σ) (l : List data)
    (s1 s2 : σ) (t : List Call) (h : runExecs p drv l s1 = some s2) :
    insertLoop p (traced drv) l 0 (s1, t) = LoopResult.done (s2, t ++ l.map (okExec p)) :=
  insertLoop_done_of_runExecs p (traced drv) l 0 _ _ (runExecs_traced p drv l s1 s2 t h)

theorem insertLoop_traced_failed {σ : Type} (p : Plugin) (drv : Driver σ)
    (pre rest : List data) (d : data) (q : String) (e : GoError) (s1 s2 s3 : σ)
    (t : List Call) (hpre : runExecs p drv pre s1 = some s2) (hq : stmtOf p d = some q)
    (hE : drv.Exec q d.values s2 = (s3, some e)) :
    insertLoop p (traced drv) (pre ++ d :: rest) 0 (s1, t) =
      LoopResult.failed pre.length e
        (s3, t ++ pre.map (okExec p) ++ [Call.exec q d.values (some e)]) :=
  insertLoop_failed_at p (traced drv) pre rest d q e (s1, t) (s2, t ++ pre.map (okExec p))
    (s3, t ++ pre.map (okExec p) ++ [Call.exec q d.values (some e)])
    (runExecs_traced p drv pre s1 s2 t hpre) hq (by simp [traced_Exec, hE])

theorem countP_begin_okExec (p : Plugin) (l : List data) :
    (l.map (okExec p)).countP Call.isBegin = 0 := by
  induction l with
  | nil => rfl
  | cons d l ih => simp [List.countP_cons, ih, okExec, Call.isBegin]

theorem commit_not_mem_okExec (p : Plugin) (l : List data) (err : Option GoError) :
    Call.commit err ∉ l.map (okExec p) := by
  intro h
  rw [List.mem_map] at h
  obtain ⟨d, -, hd⟩ := h
  simp [okExec] at hd

theorem split_at_index (l : List data) (i : Nat) (hi : i < l.length) :
    l = l.take i ++ l[i] :: l.drop (i + 1) ∧ (l.take i).length = i := by
  constructor
  · rw [← List.drop_eq_getElem_cons hi, List.take_append_drop]
  · simp only [List.length_take]; omega

/-! ## Failures of `Begin`, `Rollback` and `Commit` -/

/-- C11: when `Begin` fails with error `e`, `Write(l)` returns `(0, e)` for every
batch, empty or not; the only calls made are the failed `Begin` and the log
entry, so no `Exec`, `Rollback` or `Commit` is attempted. -/
theorem Write_begin_fails {σ : Type} (p : Plugin) (drv : Driver σ) (l : List data)
    (s s1 : σ) (e : GoError) (hB : drv.Begin s = (s1, some e)) :
    Write p drv l s = Outcome.ret 0 (some e) (drv.LogError e s1) ∧
      callsOf p drv l s = [Call.begin (some e), Call.log e] := by
  constructor
  · exact Write_final p drv l s _ (attempt_begin_err p drv l s s1 e hB)
  · have hT : Write p (traced drv) l (s, []) =
        Outcome.ret 0 (some e) (drv.LogError e s1, [Call.begin (some e), Call.log e]) := by
      apply Write_final
      have := attempt_begin_err p (traced drv) l (s, []) (s1, [Call.begin (some e)]) e
        (by simp [traced_Begin, hB])
      simpa [traced_LogError] using this
    simp [callsOf, hT, Outcome.state]

theorem Write_begin_fails_witness :
    Write demoPlugin
        { storeDriver hasNull with Begin := fun s => (s, some { msg := "down" }) }
        [rowA, rowB] emptyStore =
      Outcome.ret 0 (some { msg := "down" }) emptyStore ∧
    callsOf demoPlugin
        { storeDriver hasNull with Begin := fun s => (s, some { msg := "down" }) }
        [rowA, rowB] emptyStore =
      [Call.begin (some { msg := "down" }), Call.log { msg := "down" }] :=
  Write_begin_fails demoPlugin
    { storeDriver hasNull with Begin := fun s => (s, some { msg := "down" }) }
    [rowA, rowB] emptyStore emptyStore { msg := "down" } (by decide)

/-- C12: when `Begin` succeeds, the `Exec` of record `i` is the first to fail
and the `Rollback` that follows fails with error `r`, `Write(l)` returns
`(0, r)`, whatever `i` is; the calls end with the failed `Rollback` and its log
entry: `Begin` is called once (no retry) and `Commit` is not called. -/
theorem Write_rollback_fails {σ : Type} (p : Plugin) (drv : Driver σ) (l : List data)
    (i : Nat) (hi : i < l.length) (s s1 s2 s3 s4 : σ) (q : String) (e r : GoError)
    (hB : drv.Begin s = (s1, none)) (hpre : runExecs p drv (l.take i) s1 = some s2)
    (hq : stmtOf p l[i] = some q) (hE : drv.Exec q l[i].values s2 = (s3, some e))
    (hR : drv.Rollback (drv.LogError e s3) = (s4, some r)) :
    Write p drv l s = Outcome.ret 0 (some r) (drv.LogError r s4) ∧
      callsOf p drv l s =
        Call.begin none :: (l.take i).map (okExec p) ++
          [Call.exec q l[i].values (some e), Call.log e, Call.rollback (some r),
            Call.log r] ∧
      (callsOf p drv l s).countP Call.isBegin = 1 ∧
      (∀ err, Call.commit err ∉ callsOf p drv l s) := by
  obtain ⟨hsplit, hlen⟩ := split_at_index l i hi
  have hW : Write p drv l s = Outcome.ret 0 (some r) (drv.LogError r s4) := by
    apply Write_final
    apply attempt_rollback_err p drv l s s1 s3 s4 i e r hB _ hR
    have := insertLoop_failed_at p drv (l.take i) (l.drop (i + 1)) l[i] q e s1 s2 s3 hpre hq hE
    rw [← hsplit, hlen] at this
    exact this
  have hT : Write p (traced drv) l (s, []) =
      Outcome.ret 0 (some r)
        (drv.LogError r s4, Call.begin none :: (l.take i).map (okExec p) ++
          [Call.exec q l[i].values (some e), Call.log e, Call.rollback (some r),
            Call.log r]) := by
    apply Write_final
    have hL := insertLoop_traced_failed p drv (l.take i) (l.drop (i + 1)) l[i] q e s1 s2 s3
      [Call.begin none] hpre hq hE
    rw [← hsplit, hlen] at hL
    have := attempt_rollback_err p (traced drv) l (s, []) (s1, [Call.begin none]) _
      (s4, Call.begin none :: (l.take i).map (okExec p) ++
        [Call.exec q l[i].values (some e), Call.log e, Call.rollback (some r)]) i e r
      (by simp [traced_Begin, hB]) hL (by simp [traced_Rollback, traced_LogError, hR])
    simpa [traced_LogError] using this
  have hc : callsOf p drv l s =
      Call.begin none :: (l.take i).map (okExec p) ++
        [Call.exec q l[i].values (some e), Call.log e, Call.rollback (some r),
          Call.log r] := by
    simp [callsOf, hT, Outcome.state]
  refine ⟨hW, hc, ?_, ?_⟩
  · rw [hc, List.countP_append, List.countP_cons, countP_begin_okExec]
    simp [List.countP_cons, Call.isBegin]
  · intro err hmem
    rw [hc, List.mem_append, List.mem_cons] at hmem
    rcases hmem with (h | h) | h
    · cases h
    · exact commit_not_mem_okExec p _ err h
    · simp at h

theorem Write_rollback_fails_witness :
    Write demoPlugin
        { storeDriver hasNull with Rollback := fun s => (s, some { msg := "lost" }) }
        [rowA, rowBad, rowB] emptyStore =
      Outcome.ret 0 (some { msg := "lost" })
        { rows := [], pending := [(stmtA, [Value.int 1])] } ∧
    callsOf demoPlugin
        { storeDriver hasNull with Rollback := fun s => (s, some { msg := "lost" }) }
        [rowA, rowBad, rowB] emptyStore =
      [Call.begin none, Call.exec stmtA [Value.int 1] none,
        Call.exec stmtBad [Value.int 2, Value.null] (some { msg := "rejected" }),
        Call.log { msg := "rejected" }, Call.rollback (some { msg := "lost" }),
        Call.log { msg := "lost" }] ∧
    (callsOf demoPlugin
        { storeDriver hasNull with Rollback := fun s => (s, some { msg := "lost" }) }
        [rowA, rowBad, rowB] emptyStore).countP Call.isBegin = 1 ∧
    (∀ err, Call.commit err ∉ callsOf demoPlugin
        { storeDriver hasNull with Rollback := fun s => (s, some { msg := "lost" }) }
        [rowA, rowBad, rowB] emptyStore) :=
  Write_rollback_fails demoPlugin
    { storeDriver hasNull with Rollback := fun s => (s, some { msg := "lost" }) }
    [rowA, rowBad, rowB] 1 (by decide) emptyStore emptyStore
    { rows := [], pending := [(stmtA, [Value.int 1])] }
    { rows := [], pending := [(stmtA, [Value.int 1])] }
    { rows := [], pending := [(stmtA, [Value.int 1])] }
    stmtBad { msg := "rejected" } { msg := "lost" }
    (by decide) (by decide) (by decide) (by decide) (by decide)

/-- C13: when `Begin` succeeds, the `Exec` of every record succeeds and `Commit`
fails with error `e`, `Write(l)` returns `(0, e)`. -/
theorem Write_commit_fails {σ : Type} (p : Plugin) (drv : Driver σ) (l : List data)
    (s s1 s2 s3 : σ) (e : GoError) (hB : drv.Begin s = (s1, none))
    (hE : runExecs p drv l s1 = some s2) (hC : drv.Commit s2 = (s3, some e)) :
    Write p drv l s = Outcome.ret 0 (some e) (drv.LogError e s3) ∧
      callsOf p drv l s =
        Call.begin none :: l.map (okExec p) ++ [Call.commit (some e), Call.log e] := by
  constructor
  · exact Write_final p drv l s _
      (attempt_commit_err p drv l s s1 s2 s3 e hB
        (insertLoop_done_of_runExecs p drv l 0 s1 s2 hE) hC)
  · have hT : Write p (traced drv) l (s, []) =
        Outcome.ret 0 (some e)
          (drv.LogError e s3,
            Call.begin none :: l.map (okExec p) ++ [Call.commit (some e), Call.log e]) := by
      apply Write_final
      have := attempt_commit_err p (traced drv) l (s, []) (s1, [Call.begin none]) _
        (s3, Call.begin none :: l.map (okExec p) ++ [Call.commit (some e)]) e
        (by simp [traced_Begin, hB])
        (insertLoop_traced_done p drv l s1 s2 [Call.begin none] hE)
        (by simp [traced_Commit, hC])
      simpa [traced_LogError] using this
    simp [callsOf, hT, Outcome.state]

theorem Write_commit_fails_witness :
    Write demoPlugin
        { storeDriver hasNull with Commit := fun s => (s, some { msg := "conflict" }) }
        [rowA, rowB] emptyStore =
      Outcome.ret 0 (some { msg := "conflict" })
        { rows := [], pending := [(stmtA, [Value.int 1]), (stmtB, [Value.str "z"])] } ∧
    callsOf demoPlugin
        { storeDriver hasNull with Commit := fun s => (s, some { msg := "conflict" }) }
        [rowA, rowB] emptyStore =
      [Call.begin none, Call.exec stmtA [Value.int 1] none,
        Call.exec stmtB [Value.str "z"] none, Call.commit (some { msg := "conflict" }),
        Call.log { msg := "conflict" }] :=
  Write_commit_fails demoPlugin
    { storeDriver hasNull with Commit := fun s => (s, some { msg := "conflict" }) }
    [rowA, rowB] emptyStore emptyStore
    { rows := [], pending := [(stmtA, [Value.int 1]), (stmtB, [Value.str "z"])] }
    { rows := [], pending := [(stmtA, [Value.int 1]), (stmtB, [Value.str "z"])] }
    { msg := "conflict" } (by decide) (by decide) (by decide)

/-! ## The statement of a record -/

theorem stmtOf_eq_some (p : Plugin) (d : data) (q : String) (h : stmtOf p d = some q) :
    ∃ ph, p.spool.get? d.values.length = some ph ∧
      q = "INSERT INTO " ++ p.conf.Table ++ "(" ++ d.columns ++ ") VALUES(" ++ ph ++ ")" := by
  unfold stmtOf at h
  cases hg : p.spool.get? d.values.length with
  | none => rw [hg] at h; simp at h
  | some ph =>
    rw [hg] at h
    simp only [Option.some.injEq] at h
    exact ⟨ph, rfl, h.symm⟩

theorem runExecs_stmt {σ : Type} (p : Plugin) (drv : Driver σ) :
    ∀ (l : List data) (s s2 : σ), runExecs p drv l s = some s2 →
      ∀ d ∈ l, ∃ q, stmtOf p d = some q := by
  intro l
  induction l with
  | nil => intro s s2 _ d hd; cases hd
  | cons a l ih =>
    intro s s2 h d hd
    simp only [runExecs] at h
    split at h
    · simp at h
    · rename_i q hq
      split at h
      · rename_i s1 hE
        rcases List.mem_cons.1 hd with rfl | hd
        · exact ⟨q, hq⟩
        · exact ih s1 s2 h d hd
      · simp at h

/-- The observed run in which every call succeeds. -/
theorem Write_traced_commit {σ : Type} (p : Plugin) (drv : Driver σ) (l : List data)
    (s s1 s2 s3 : σ) (t : List Call) (hB : drv.Begin s = (s1, none))
    (hE : runExecs p drv l s1 = some s2) (hC : drv.Commit s2 = (s3, none)) :
    Write p (traced drv) l (s, t) =
      Outcome.ret l.length none
        (s3, t ++ (Call.begin none :: l.map (okExec p) ++ [Call.commit none])) := by
  apply Write_final
  have := attempt_commit_ok p (traced drv) l (s, t) (s1, t ++ [Call.begin none])
    (s2, t ++ [Call.begin none] ++ l.map (okExec p))
    (s3, t ++ (Call.begin none :: l.map (okExec p) ++ [Call.commit none]))
    (by simp [traced_Begin, hB])
    (insertLoop_traced_done p drv l s1 s2 (t ++ [Call.begin none]) hE)
    (by simp [traced_Commit, hC])
  exact this

/-- C14: every `Exec` that `Write` makes is for a record `d` of the batch, with
the statement text `INSERT INTO <table>(<d.columns>) VALUES(<spool[len(d.values)]>)`
and the parameters `d.values`; the placeholder is looked up by the number of
values, not by the position in the batch.  When all calls succeed, every record
of the batch is executed so.  A record with columns `a,b` and values
`[1, "x"]` gets the columns `a,b` and the placeholders `$1,$2`. -/
theorem Write_statement {σ : Type} (p : Plugin) (drv : Driver σ) (l : List data) (s : σ) :
    (∀ q v err, Call.exec q v err ∈ callsOf p drv l s →
      ∃ d ∈ l, ∃ ph, p.spool.get? d.values.length = some ph ∧
        q = "INSERT INTO " ++ p.conf.Table ++ "(" ++ d.columns ++ ") VALUES(" ++ ph ++ ")" ∧
        v = d.values) ∧
      (∀ s1 s2 s3, drv.Begin s = (s1, none) → runExecs p drv l s1 = some s2 →
        drv.Commit s2 = (s3, none) →
        ∀ d ∈ l, ∃ ph, p.spool.get? d.values.length = some ph ∧
          Call.exec
            ("INSERT INTO " ++ p.conf.Table ++ "(" ++ d.columns ++ ") VALUES(" ++ ph ++ ")")
            d.values none ∈ callsOf p drv l s) ∧
      (∀ conf : Config, 2 ≤ conf.Mapping.length →
        stmtOf (Init conf) { columns := "a,b", values := [Value.int 1, Value.str "x"] } =
          some ("INSERT INTO " ++ conf.Table ++ "(a,b) VALUES($1,$2)")) := by
  refine ⟨?_, ?_, ?_⟩
  · intro q v err hmem
    obtain ⟨cs, h1, h2, -⟩ := Write_traced_calls p drv l (s, [])
    have hcs : callsOf p drv l s = cs := by simpa [callsOf] using h1
    rw [hcs] at hmem
    rcases h2 _ hmem with h | ⟨d, hd, q1, err1, hq, hc⟩
    · exact absurd rfl (h q v err)
    · simp only [Call.exec.injEq] at hc
      obtain ⟨rfl, rfl, -⟩ := hc
      obtain ⟨ph, hph, hq1⟩ := stmtOf_eq_some p d q hq
      exact ⟨d, hd, ph, hph, hq1, rfl⟩
  · intro s1 s2 s3 hB hE hC d hd
    obtain ⟨q, hq⟩ := runExecs_stmt p drv l s1 s2 hE d hd
    obtain ⟨ph, hph, hq1⟩ := stmtOf_eq_some p d q hq
    refine ⟨ph, hph, ?_⟩
    have hT := Write_traced_commit p drv l s s1 s2 s3 [] hB hE hC
    have hc : callsOf p drv l s =
        Call.begin none :: l.map (okExec p) ++ [Call.commit none] := by
      simp [callsOf, hT, Outcome.state]
    rw [hc, ← hq1]
    have : okExec p d = Call.exec q d.values none := by simp [okExec, hq]
    rw [← this]
    simp only [List.cons_append, List.mem_cons, List.mem_append, List.mem_map]
    exact Or.inr (Or.inl ⟨d, hd, rfl⟩)
  · intro conf hm
    have hsp : (Init conf).spool.get? 2 = some "$1,$2" := by
      rw [Init_spool, List.get?_eq_getElem?, List.getElem?_map,
        List.getElem?_range (by omega)]
      decide
    have hconf : (Init conf).conf.Table = conf.Table := rfl
    unfold stmtOf
    simp only [List.length_cons, List.length_nil]
    rw [hsp]
    simp only [hconf, String.append_assoc]
    rfl

theorem Write_statement_witness :
    callsOf demoPlugin (storeDriver hasNull)
        [{ columns := "a,b", values := [Value.int 1, Value.str "x"] }] emptyStore =
      [Call.begin none,
        Call.exec "INSERT INTO t(a,b) VALUES($1,$2)" [Value.int 1, Value.str "x"] none,
        Call.commit none] ∧
    ∃ ph, demoPlugin.spool.get? 2 = some ph ∧
      Call.exec ("INSERT INTO " ++ "t" ++ "(" ++ "a,b" ++ ") VALUES(" ++ ph ++ ")")
          [Value.int 1, Value.str "x"] none ∈
        callsOf demoPlugin (storeDriver hasNull)
          [{ columns := "a,b", values := [Value.int 1, Value.str "x"] }] emptyStore :=
  ⟨by decide,
    (Write_statement demoPlugin (storeDriver hasNull)
      [{ columns := "a,b", values := [Value.int 1, Value.str "x"] }] emptyStore).2.1
      emptyStore
      { rows := [], pending := [("INSERT INTO t(a,b) VALUES($1,$2)",
          [Value.int 1, Value.str "x"])] }
      { rows := [("INSERT INTO t(a,b) VALUES($1,$2)", [Value.int 1, Value.str "x"])],
        pending := [] }
      (by decide) (by decide) (by decide)
      { columns := "a,b", values := [Value.int 1, Value.str "x"] } (by decide)⟩

/-! ## `Size`, sentinels, cache bounds, iteration order -/

theorem char_ascii_size (c : Char) (hc : c.toNat < 128) : c.utf8Size = 1 := by
  unfold Char.utf8Size
  have h : c.val ≤ UInt32.ofNatCore 127 (by decide) := by
    rw [UInt32.le_def, BitVec.le_def]
    exact Nat.le_of_lt_succ hc
  simp only [h, if_true]

theorem utf8Len_ascii : ∀ (cs : List Char), (∀ c ∈ cs, c.toNat < 128) →
    String.utf8Len cs = cs.length := by
  intro cs
  induction cs with
  | nil => intro _; rfl
  | cons c cs ih =>
    intro h
    rw [String.utf8Len_cons, ih (fun x hx => h x (List.mem_cons_of_mem _ hx)),
      char_ascii_size c (h c (List.mem_cons_self _ _)), List.length_cons]

/-- C17, as the code has it: `Size()` is the byte length of the columns string
plus the number of values; it is the character count plus the number of values
when every character of the columns string is ASCII. -/
theorem Size_bytes (d : data) :
    d.Size = ((d.columns.utf8ByteSize + d.values.length : Nat) : Int) ∧
      ((∀ c ∈ d.columns.data, c.toNat < 128) →
        d.Size = ((d.columns.length + d.values.length : Nat) : Int)) := by
  refine ⟨rfl, ?_⟩
  intro h
  have : d.columns.utf8ByteSize = d.columns.length := utf8Len_ascii d.columns.data h
  simp [data.Size, this]

theorem Size_bytes_witness :
    data.Size { columns := "a,b", values := [Value.int 1, Value.str "x"] } = 5 ∧
      (("a,b".length + [Value.int 1, Value.str "x"].length : Nat) : Int) = 5 :=
  ⟨((Size_bytes { columns := "a,b", values := [Value.int 1, Value.str "x"] }).2
      (by decide)).trans (by decide), by decide⟩

/-- C17, as stated, fails: the record encoded for the column name `é` has one
character and one value, and `Size()` is 3. -/
theorem Size_not_characters :
    Encode [("é", "@tag")] { Tag := "app", Time := { unixNano := 0 }, Record := [] } =
        (some { columns := "é", values := [Value.str "app"] }, none) ∧
      data.Size { columns := "é", values := [Value.str "app"] } = 3 ∧
      (("é".length + [Value.str "app"].length : Nat) : Int) = 2 := by
  decide

/-- C18: a tag sentinel resolves to the event's tag and a timestamp sentinel to
the event's timestamp, whatever the fields hold; any other selector resolves to
the field of that key; the record encoded for a single entry holds that value;
and a mapping with a sentinel selector never gives the nil record. -/
theorem Encode_sentinels (ev : Event) :
    resolve ev "@tag" = some (Value.str ev.Tag) ∧
      resolve ev "_tag" = some (Value.str ev.Tag) ∧
      resolve ev "@timestamp" = some (Value.time ev.Time) ∧
      resolve ev "_timestamp" = some (Value.time ev.Time) ∧
      (∀ r, isSentinel r = false → resolve ev r = ev.Record.lookup r) ∧
      (∀ cname r, r = "@tag" ∨ r = "_tag" →
        Encode [(cname, r)] ev =
          (some { columns := cname, values := [Value.str ev.Tag] }, none)) ∧
      (∀ cname r, r = "@timestamp" ∨ r = "_timestamp" →
        Encode [(cname, r)] ev =
          (some { columns := cname, values := [Value.time ev.Time] }, none)) ∧
      (∀ cname r v, isSentinel r = false → ev.Record.lookup r = some v →
        Encode [(cname, r)] ev = (some { columns := cname, values := [v] }, none)) ∧
      (∀ order : List (String × String), (∃ e ∈ order, isSentinel e.2 = true) →
        ∃ d, Encode order ev = (some d, none)) := by
  have hother : ∀ r, isSentinel r = false → resolve ev r = ev.Record.lookup r := by
    intro r hr
    simp only [isSentinel, decide_eq_false_iff_not, not_or] at hr
    unfold resolve
    rw [if_neg (by tauto), if_neg (by tauto)]
  have hone : ∀ cname r v, resolve ev r = some v →
      Encode [(cname, r)] ev = (some { columns := cname, values := [v] }, none) := by
    intro cname r v hv
    have hres : resolves ev (cname, r) = true := by
      have := resolve_isSome ev r
      rw [hv] at this
      simpa [resolves] using this.symm
    rw [Encode_eq]
    simp [emitted, List.filter_cons, hres, hv, String.intercalate, String.intercalate.go]
  refine ⟨by simp [resolve], by simp [resolve], by simp [resolve], by simp [resolve],
    hother, ?_, ?_, ?_, ?_⟩
  · intro cname r hr
    apply hone
    rcases hr with rfl | rfl <;> rfl
  · intro cname r hr
    apply hone
    rcases hr with rfl | rfl <;> rfl
  · intro cname r v hr hv
    apply hone
    rw [hother r hr, hv]
  · rintro order ⟨e, he, hs⟩
    have hne : emitted order ev ≠ [] := by
      intro hnil
      have : e ∈ emitted order ev := List.mem_filter.2 ⟨he, by simp [resolves, hs]⟩
      rw [hnil] at this
      cases this
    exact ⟨_, by rw [Encode_eq, if_neg hne]⟩

theorem Encode_sentinels_witness :
    Encode [("host", "@tag")]
        { Tag := "app", Time := { unixNano := 7 }, Record := [("@tag", Value.int 9)] } =
      (some { columns := "host", values := [Value.str "app"] }, none) :=
  (Encode_sentinels
    { Tag := "app", Time := { unixNano := 7 }, Record := [("@tag", Value.int 9)] }).2.2.2.2.2.1
    "host" "@tag" (Or.inl rfl)

theorem Init_spool_length (conf : Config) :
    (Init conf).spool.length =
      if conf.Mapping.length = 0 then 2 else conf.Mapping.length + 1 := by
  rw [Init_spool, List.length_map, List.length_range]
  split <;> omega

/-- C19: a record that `Encode` returns for a mapping of size `m` has between
1 and `m` values, so with the cache built by `Init` (of `m + 1` entries, 2 when
`m = 0`) the lookup `spool[len(values)]` is in range, is the entry for that
arity and is not the empty entry `spool[0]`. -/
theorem Encode_in_range (conf : Config) (order : List (String × String)) (ev : Event)
    (d : data) (hperm : order.Perm conf.Mapping) (h : (Encode order ev).1 = some d) :
    1 ≤ d.values.length ∧ d.values.length ≤ conf.Mapping.length ∧
      (Init conf).spool.length =
        (if conf.Mapping.length = 0 then 2 else conf.Mapping.length + 1) ∧
      d.values.length < (Init conf).spool.length ∧
      (Init conf).spool.get? d.values.length = some (markers d.values.length) ∧
      markers d.values.length ≠ "" ∧
      InRange (Init conf) [d] := by
  rw [Encode_eq] at h
  split at h
  · simp at h
  · rename_i hne
    simp only [Option.some.injEq] at h
    subst h
    have hlen : (order.filterMap (fun e => resolve ev e.2)).length =
        (emitted order ev).length := by
      have := congrArg List.length (values_aligned ev order)
      simpa using this
    have h1 : 1 ≤ (emitted order ev).length :=
      Nat.succ_le_of_lt (List.length_pos.2 hne)
    have h2 : (emitted order ev).length ≤ conf.Mapping.length := by
      rw [← hperm.length_eq]
      exact List.length_filter_le _ _
    have h3 := Init_spool_length conf
    have h4 : (order.filterMap (fun e => resolve ev e.2)).length <
        (Init conf).spool.length := by
      rw [h3, hlen]
      split <;> omega
    dsimp only
    refine ⟨by omega, by omega, h3, h4, ?_, markers_ne_empty _ (by omega), ?_⟩
    · rw [Init_spool, List.get?_eq_getElem?, List.getElem?_map,
        List.getElem?_range (by omega)]
      rfl
    · intro d1 hd1
      rw [List.mem_singleton] at hd1
      subst hd1
      exact h4

theorem Encode_in_range_witness :
    1 ≤ 2 ∧ 2 ≤ 3 ∧
      (Init { URI := "", Table := "t",
              Mapping := [("a", "x"), ("b", "missing"), ("c", "@tag")] }).spool.get? 2 =
        some "$1,$2" := by
  have h := Encode_in_range
    { URI := "", Table := "t", Mapping := [("a", "x"), ("b", "missing"), ("c", "@tag")] }
    [("c", "@tag"), ("a", "x"), ("b", "missing")]
    { Tag := "app", Time := { unixNano := 7 }, Record := [("x", Value.int 1)] }
    { columns := "c,a", values := [Value.str "app", Value.int 1] }
    (by decide) (by decide)
  exact ⟨h.1, h.2.1, h.2.2.2.2.1.trans (by decide)⟩

/-- C16, as stated, fails: the two orders in which the entries of one mapping
can be visited give different records for the same event. -/
theorem Encode_order_matters :
    [("a", "x"), ("b", "y")].Perm [("b", "y"), ("a", "x")] ∧
      Encode [("a", "x"), ("b", "y")]
          { Tag := "app", Time := { unixNano := 0 },
            Record := [("x", Value.int 1), ("y", Value.int 2)] } =
        (some { columns := "a,b", values := [Value.int 1, Value.int 2] }, none) ∧
      Encode [("b", "y"), ("a", "x")]
          { Tag := "app", Time := { unixNano := 0 },
            Record := [("x", Value.int 1), ("y", Value.int 2)] } =
        (some { columns := "b,a", values := [Value.int 2, Value.int 1] }, none) ∧
      Encode [("a", "x"), ("b", "y")]
          { Tag := "app", Time := { unixNano := 0 },
            Record := [("x", Value.int 1), ("y", Value.int 2)] } ≠
        Encode [("b", "y"), ("a", "x")]
          { Tag := "app", Time := { unixNano := 0 },
            Record := [("x", Value.int 1), ("y", Value.int 2)] } := by
  decide

/-- C16, as the code has it: `Encode` is a function of the event and of the
order in which the entries of the mapping are visited.  For two orders of the
same entries the results are both nil or both records, the error is nil, each
record pairs the columns it lists with its values, and the two records hold
the same column/value pairs up to a permutation. -/
theorem Encode_up_to_order (o1 o2 : List (String × String)) (ev : Event)
    (hperm : o1.Perm o2) :
    ((Encode o1 ev).1 = none ↔ (Encode o2 ev).1 = none) ∧
      (Encode o1 ev).2 = none ∧ (Encode o2 ev).2 = none ∧
      (∀ d1 d2, (Encode o1 ev).1 = some d1 → (Encode o2 ev).1 = some d2 →
        d1.columns = String.intercalate "," ((emitted o1 ev).map Prod.fst) ∧
          d1.values.map some = (emitted o1 ev).map (fun e => resolve ev e.2) ∧
          d2.columns = String.intercalate "," ((emitted o2 ev).map Prod.fst) ∧
          d2.values.map some = (emitted o2 ev).map (fun e => resolve ev e.2) ∧
          (emitted o1 ev).Perm (emitted o2 ev) ∧
          d1.values.Perm d2.values ∧ d1.values.length = d2.values.length) := by
  have hem : (emitted o1 ev).Perm (emitted o2 ev) := hperm.filter _
  have hnil : emitted o1 ev = [] ↔ emitted o2 ev = [] := by
    constructor
    · intro h; rw [h] at hem; exact hem.symm.eq_nil
    · intro h; rw [h] at hem; exact hem.eq_nil
  have hval : (o1.filterMap (fun e => resolve ev e.2)).Perm
      (o2.filterMap (fun e => resolve ev e.2)) := hperm.filterMap _
  rw [Encode_eq, Encode_eq]
  by_cases h1 : emitted o1 ev = []
  · have h2 := hnil.1 h1
    rw [if_pos h1, if_pos h2]
    simp
  · have h2 : emitted o2 ev ≠ [] := fun h => h1 (hnil.2 h)
    rw [if_neg h1, if_neg h2]
    refine ⟨by simp, rfl, rfl, ?_⟩
    intro d1 d2 hd1 hd2
    simp only [Option.some.injEq] at hd1 hd2
    subst hd1 hd2
    exact ⟨rfl, values_aligned ev o1, rfl, values_aligned ev o2, hem, hval,
      hval.length_eq⟩

theorem Encode_up_to_order_witness :
    (Encode [("a", "x"), ("b", "y")]
        { Tag := "app", Time := { unixNano := 0 },
          Record := [("x", Value.int 1), ("y", Value.int 2)] }).1 = none ↔
      (Encode [("b", "y"), ("a", "x")]
        { Tag := "app", Time := { unixNano := 0 },
          Record := [("x", Value.int 1), ("y", Value.int 2)] }).1 = none :=
  (Encode_up_to_order [("a", "x"), ("b", "y")] [("b", "y"), ("a", "x")]
    { Tag := "app", Time := { unixNano := 0 },
      Record := [("x", Value.int 1), ("y", Value.int 2)] } (by decide)).1

/-! ## Rows persisted by a run -/

theorem persistedFrom_begin (pending : List (String × List Value))
    (x : Option GoError) (cs : List Call) :
    persistedFrom pending (Call.begin x :: cs) = persistedFrom [] cs := rfl

theorem persistedFrom_exec_ok (pending : List (String × List Value)) (q : String)
    (v : List Value) (cs : List Call) :
    persistedFrom pending (Call.exec q v none :: cs) =
      persistedFrom (pending ++ [(q, v)]) cs := rfl

theorem persistedFrom_exec_err (pending : List (String × List Value)) (q : String)
    (v : List Value) (e : GoError) (cs : List Call) :
    persistedFrom pending (Call.exec q v (some e) :: cs) = persistedFrom pending cs := rfl

theorem persistedFrom_rollback (pending : List (String × List Value))
    (x : Option GoError) (cs : List Call) :
    persistedFrom pending (Call.rollback x :: cs) = persistedFrom [] cs := rfl

theorem persistedFrom_commit_ok (pending : List (String × List Value)) (cs : List Call) :
    persistedFrom pending (Call.commit none :: cs) = pending ++ persistedFrom [] cs := rfl

theorem persistedFrom_commit_err (pending : List (String × List Value)) (e : GoError)
    (cs : List Call) :
    persistedFrom pending (Call.commit (some e) :: cs) = persistedFrom [] cs := rfl

theorem persistedFrom_log (pending : List (String × List Value)) (e : GoError)
    (cs : List Call) :
    persistedFrom pending (Call.log e :: cs) = persistedFrom pending cs := rfl

theorem persistedFrom_nil (pending : List (String × List Value)) :
    persistedFrom pending [] = [] := rfl

theorem persistedFrom_okExec (p : Plugin) :
    ∀ (l : List data) (pending : List (String × List Value)) (rest : List Call),
      persistedFrom pending (l.map (okExec p) ++ rest) =
        persistedFrom (pending ++ l.map (rowOf p)) rest := by
  intro l
  induction l with
  | nil => intro pending rest; simp
  | cons d l ih =>
    intro pending rest
    show persistedFrom pending
      (Call.exec ((stmtOf p d).getD "") d.values none :: (l.map (okExec p) ++ rest)) = _
    rw [persistedFrom_exec_ok, ih]
    simp [rowOf]

/-- The observed run whose record `k > 0` fails and is rolled back. -/
theorem Write_traced_retry {σ : Type} (p : Plugin) (drv : Driver σ) (l : List data)
    (k : Nat) (hk0 : 0 < k) (hk : k < l.length) (s s1 s2 s3 s4 : σ) (q : String)
    (e : GoError) (t : List Call) (hB : drv.Begin s = (s1, none))
    (hpre : runExecs p drv (l.take k) s1 = some s2) (hq : stmtOf p l[k] = some q)
    (hE : drv.Exec q l[k].values s2 = (s3, some e))
    (hR : drv.Rollback (drv.LogError e s3) = (s4, none)) :
    Write p (traced drv) l (s, t) =
      Write p (traced drv) (l.take k)
        (s4, t ++ [Call.begin none] ++ (l.take k).map (okExec p) ++
          [Call.exec q l[k].values (some e)] ++ [Call.log e] ++ [Call.rollback none]) := by
  obtain ⟨hsplit, hlen⟩ := split_at_index l k hk
  apply Write_retry
  have hL := insertLoop_traced_failed p drv (l.take k) (l.drop (k + 1)) l[k] q e s1 s2 s3
    (t ++ [Call.begin none]) hpre hq hE
  rw [← hsplit, hlen] at hL
  exact attempt_later_failed p (traced drv) l (s, t) (s1, t ++ [Call.begin none]) _ _ k e hk0
    (by simp [traced_Begin, hB]) hL (by simp [traced_Rollback, traced_LogError, hR])

theorem runExecs_all_ok {σ : Type} (p : Plugin) (drv : Driver σ) :
    ∀ (l : List data),
      (∀ d ∈ l, ∃ q, stmtOf p d = some q ∧ ∀ st, (drv.Exec q d.values st).2 = none) →
      ∀ st, ∃ s2, runExecs p drv l st = some s2 := by
  intro l
  induction l with
  | nil => intro _ st; exact ⟨st, rfl⟩
  | cons d l ih =>
    intro h st
    obtain ⟨q, hq, hok⟩ := h d (by simp)
    obtain ⟨s2, h2⟩ := ih (fun d1 hd1 => h d1 (by simp [hd1])) (drv.Exec q d.values st).1
    refine ⟨s2, ?_⟩
    simp only [runExecs, hq]
    have hE : drv.Exec q d.values st = ((drv.Exec q d.values st).1, none) :=
      Prod.ext rfl (hok st)
    rw [hE]
    exact h2

/-- C15: under a driver whose `Begin`, `Rollback` and `Commit` always succeed
and whose `Exec` always fails on record `k` (`0 < k < len(l)`) and never on the
records before it, `Write(l)` returns `(k, nil)` and the rows persisted by the
call are the records `l[0..k-1]`, each once and in order: `k` rows. -/
theorem Write_one_bad_record {σ : Type} (p : Plugin) (drv : Driver σ) (l : List data)
    (k : Nat) (hk0 : 0 < k) (hk : k < l.length) (s : σ) (q : String)
    (hBegin : ∀ st, (drv.Begin st).2 = none)
    (hRollback : ∀ st, (drv.Rollback st).2 = none)
    (hCommit : ∀ st, (drv.Commit st).2 = none)
    (hq : stmtOf p l[k] = some q) (hbad : ∀ st, (drv.Exec q l[k].values st).2 ≠ none)
    (hgood : ∀ d ∈ l.take k, ∃ q1, stmtOf p d = some q1 ∧
      ∀ st, (drv.Exec q1 d.values st).2 = none) :
    (∃ s1, Write p drv l s = Outcome.ret k none s1) ∧
      persisted (callsOf p drv l s) = (l.take k).map (rowOf p) ∧
      (persisted (callsOf p drv l s)).length = k := by
  obtain ⟨-, hlen⟩ := split_at_index l k hk
  have hB : ∀ st, drv.Begin st = ((drv.Begin st).1, none) := fun st =>
    Prod.ext rfl (hBegin st)
  have hR : ∀ st, drv.Rollback st = ((drv.Rollback st).1, none) := fun st =>
    Prod.ext rfl (hRollback st)
  have hC : ∀ st, drv.Commit st = ((drv.Commit st).1, none) := fun st =>
    Prod.ext rfl (hCommit st)
  obtain ⟨s2, h2⟩ := runExecs_all_ok p drv (l.take k) hgood (drv.Begin s).1
  obtain ⟨e, he⟩ : ∃ e, (drv.Exec q l[k].values s2).2 = some e := by
    cases h : (drv.Exec q l[k].values s2).2 with
    | none => exact absurd h (hbad s2)
    | some e => exact ⟨e, rfl⟩
  have hE : drv.Exec q l[k].values s2 = ((drv.Exec q l[k].values s2).1, some e) :=
    Prod.ext rfl he
  have hT1 := Write_traced_retry p drv l k hk0 hk s _ s2 _ _ q e [] (hB s) h2 hq hE (hR _)
  obtain ⟨s6, h6⟩ := runExecs_all_ok p drv (l.take k) hgood
    (drv.Begin (drv.Rollback (drv.LogError e (drv.Exec q l[k].values s2).1)).1).1
  have hT2 := Write_traced_commit p drv (l.take k) _ _ s6 _
    ([] ++ [Call.begin none] ++ (l.take k).map (okExec p) ++
      [Call.exec q l[k].values (some e)] ++ [Call.log e] ++ [Call.rollback none])
    (hB _) h6 (hC s6)
  rw [← hT1, hlen] at hT2
  have hW := Write_of_traced p drv l s [] k none _ hT2
  have hc : callsOf p drv l s =
      [] ++ [Call.begin none] ++ (l.take k).map (okExec p) ++
        [Call.exec q l[k].values (some e)] ++ [Call.log e] ++ [Call.rollback none] ++
        (Call.begin none :: (l.take k).map (okExec p) ++ [Call.commit none]) := by
    simp only [callsOf, hT2, Outcome.state]
  have hc1 : callsOf p drv l s =
      Call.begin none :: ((l.take k).map (okExec p) ++
        (Call.exec q l[k].values (some e) :: Call.log e :: Call.rollback none ::
          Call.begin none :: ((l.take k).map (okExec p) ++ [Call.commit none]))) := by
    rw [hc]
    simp
  have hp : persisted (callsOf p drv l s) = (l.take k).map (rowOf p) := by
    rw [hc1, persisted, persistedFrom_begin, persistedFrom_okExec, persistedFrom_exec_err,
      persistedFrom_log, persistedFrom_rollback, persistedFrom_begin, persistedFrom_okExec,
      persistedFrom_commit_ok, persistedFrom_nil]
    simp
  refine ⟨⟨_, hW⟩, hp, ?_⟩
  rw [hp, List.length_map, hlen]

theorem Write_one_bad_record_witness :
    (∃ s1, Write demoPlugin (storeDriver hasNull) [rowA, rowB, rowBad, rowA] emptyStore =
        Outcome.ret 2 none s1) ∧
      persisted (callsOf demoPlugin (storeDriver hasNull) [rowA, rowB, rowBad, rowA]
        emptyStore) = [rowOf demoPlugin rowA, rowOf demoPlugin rowB] ∧
      (persisted (callsOf demoPlugin (storeDriver hasNull) [rowA, rowB, rowBad, rowA]
        emptyStore)).length = 2 :=
  Write_one_bad_record demoPlugin (storeDriver hasNull) [rowA, rowB, rowBad, rowA] 2
    (by decide) (by decide) emptyStore stmtBad (fun _ => rfl) (fun _ => rfl) (fun _ => rfl)
    (by decide) (fun st => by simp [storeDriver, rowBad, hasNull])
    (fun d hd => by
      have hd1 : d = rowA ∨ d = rowB := by simpa using hd
      rcases hd1 with rfl | rfl
      · exact ⟨stmtA, by decide, fun st => by simp [storeDriver, rowA, hasNull]⟩
      · exact ⟨stmtB, by decide, fun st => by simp [storeDriver, rowB, hasNull]⟩)

/-! ## The persisted-prefix invariant -/

theorem insertLoop_traced_done_calls {σ : Type} (p : Plugin) (drv : Driver σ) :
    ∀ (l : List data) (i : Nat) (s : σ) (t : List Call) (w2 : σ × List Call),
      insertLoop p (traced drv) l i (s, t) = LoopResult.done w2 →
        w2.2 = t ++ l.map (okExec p) := by
  intro l
  induction l with
  | nil =>
    intro i s t w2 h
    simp only [insertLoop, LoopResult.done.injEq] at h
    subst h
    simp
  | cons d rest ih =>
    intro i s t w2 h
    simp only [insertLoop] at h
    cases hq : stmtOf p d with
    | none => simp [hq] at h
    | some q =>
      simp only [hq, traced_Exec] at h
      rcases hE : drv.Exec q d.values s with ⟨s1, _ | e⟩
      · simp only [hE] at h
        rw [ih (i + 1) s1 _ w2 h]
        simp [okExec, hq]
      · simp [hE] at h

/-- Calls that are `Exec`s or log entries, followed by a `Rollback`, persist
nothing. -/
theorem persistedFrom_rolled_back :
    ∀ (cs : List Call),
      (∀ c ∈ cs, (∃ q v err, c = Call.exec q v err) ∨ ∃ e, c = Call.log e) →
      ∀ (pending : List (String × List Value)) (x : Option GoError) (rest : List Call),
        persistedFrom pending (cs ++ Call.rollback x :: rest) = persistedFrom [] rest := by
  intro cs
  induction cs with
  | nil => intro _ pending x rest; rfl
  | cons c cs ih =>
    intro h pending x rest
    have hcs : ∀ c1 ∈ cs, (∃ q v err, c1 = Call.exec q v err) ∨ ∃ e, c1 = Call.log e :=
      fun c1 hc1 => h c1 (List.mem_cons_of_mem _ hc1)
    rcases h c (List.mem_cons_self _ _) with ⟨q, v, err, rfl⟩ | ⟨e, rfl⟩
    · cases err with
      | none => rw [List.cons_append, persistedFrom_exec_ok, ih hcs]
      | some e => rw [List.cons_append, persistedFrom_exec_err, ih hcs]
    · rw [List.cons_append, persistedFrom_log, ih hcs]

theorem execs_then_log (p : Plugin) (l : List data) (ce : List Call) (e : GoError)
    (h : ∀ c ∈ ce, ExecOf p l c) :
    ∀ c ∈ ce ++ [Call.log e], (∃ q v err, c = Call.exec q v err) ∨ ∃ e1, c = Call.log e1 := by
  intro c hc
  rcases List.mem_append.1 hc with hc | hc
  · obtain ⟨d, -, q, err, -, rfl⟩ := h c hc
    exact Or.inl ⟨q, d.values, err, rfl⟩
  · rw [List.mem_singleton] at hc
    exact Or.inr ⟨e, hc⟩

/-- The rows persisted by an activation that finishes. -/
theorem attempt_traced_final_rows {σ : Type} (p : Plugin) (drv : Driver σ) (l : List data)
    (w : σ × List Call) (o : Outcome (σ × List Call))
    (h : attempt p (traced drv) l w = Step.final o) :
    ∃ cs, o.state.2 = w.2 ++ cs ∧
      (∀ c e w1, o = Outcome.ret c e w1 → c ≤ l.length) ∧
      (∀ c w1, o = Outcome.ret c none w1 →
        persisted cs = (l.take c).map (rowOf p) ∨ (c = 1 ∧ persisted cs = [])) ∧
      (∀ c e w1, o = Outcome.ret c (some e) w1 →
        (∀ r, Call.rollback (some r) ∉ cs) → persisted cs = []) := by
  unfold attempt at h
  simp only [traced_Begin] at h
  rcases hB : drv.Begin w.1 with ⟨s1, _ | e0⟩
  · simp only [hB] at h
    obtain ⟨ce, h1, h2, -⟩ := insertLoop_traced_calls p drv l 0 s1 (w.2 ++ [Call.begin none])
    rcases hL : insertLoop p (traced drv) l 0 (s1, w.2 ++ [Call.begin none]) with
      w2 | ⟨i, e1, w2⟩ | w2
    · have hw2 := insertLoop_traced_done_calls p drv l 0 s1 _ w2 hL
      simp only [hL, traced_Commit] at h
      rcases hC : drv.Commit w2.1 with ⟨s3, _ | e2⟩
      · simp only [hC, Step.final.injEq] at h
        subst h
        refine ⟨Call.begin none :: (l.map (okExec p) ++ [Call.commit none]),
          by simp [Outcome.state, hw2], ?_, ?_, ?_⟩
        · intro c e w1 ho
          simp only [Outcome.ret.injEq] at ho
          omega
        · intro c w1 ho
          simp only [Outcome.ret.injEq] at ho
          left
          rw [persisted, persistedFrom_begin, persistedFrom_okExec, persistedFrom_commit_ok,
            persistedFrom_nil, ← ho.1]
          simp
        · intro c e w1 ho
          simp at ho
      · simp only [hC, traced_LogError, Step.final.injEq] at h
        subst h
        refine ⟨Call.begin none :: (l.map (okExec p) ++ [Call.commit (some e2), Call.log e2]),
          by simp [Outcome.state, hw2], ?_, ?_, ?_⟩
        · intro c e w1 ho
          simp only [Outcome.ret.injEq] at ho
          omega
        · intro c w1 ho
          simp at ho
        · intro c e w1 _ _
          rw [persisted, persistedFrom_begin, persistedFrom_okExec, persistedFrom_commit_err,
            persistedFrom_log, persistedFrom_nil]
    · rw [hL] at h1
      simp only [LoopResult.state] at h1
      have hb := insertLoop_failed_bound p (traced drv) l 0 _ i e1 w2 hL
      simp only [hL, traced_Rollback, traced_LogError] at h
      rcases hR : drv.Rollback (drv.LogError e1 w2.1) with ⟨s3, _ | r⟩
      · simp only [hR] at h
        split at h
        · simp at h
        · simp only [Step.final.injEq] at h
          subst h
          refine ⟨Call.begin none :: ((ce ++ [Call.log e1]) ++ Call.rollback none :: []),
            by simp [Outcome.state, h1], ?_, ?_, ?_⟩
          · intro c e w1 ho
            simp only [Outcome.ret.injEq] at ho
            omega
          · intro c w1 ho
            simp only [Outcome.ret.injEq] at ho
            right
            refine ⟨ho.1.symm, ?_⟩
            rw [persisted, persistedFrom_begin,
              persistedFrom_rolled_back _ (execs_then_log p l ce e1 h2), persistedFrom_nil]
          · intro c e w1 ho
            simp at ho
      · simp only [hR, Step.final.injEq] at h
        subst h
        refine ⟨Call.begin none :: ((ce ++ [Call.log e1]) ++
            Call.rollback (some r) :: [Call.log r]),
          by simp [Outcome.state, h1], ?_, ?_, ?_⟩
        · intro c e w1 ho
          simp only [Outcome.ret.injEq] at ho
          omega
        · intro c w1 ho
          simp at ho
        · intro c e w1 _ hno
          exact absurd (by simp) (hno r)
    · rw [hL] at h1
      simp only [LoopResult.state] at h1
      simp only [hL, Step.final.injEq] at h
      subst h
      refine ⟨Call.begin none :: ce, by simp [Outcome.state, h1], ?_, ?_, ?_⟩
      · intro c e w1 ho; simp at ho
      · intro c w1 ho; simp at ho
      · intro c e w1 ho; simp at ho
  · simp only [hB, traced_LogError, Step.final.injEq] at h
    subst h
    refine ⟨[Call.begin (some e0), Call.log e0], by simp [Outcome.state], ?_, ?_, ?_⟩
    · intro c e w1 ho
      simp only [Outcome.ret.injEq] at ho
      omega
    · intro c w1 ho
      simp at ho
    · intro c e w1 _ _
      rfl

/-- The calls of an activation that ends in a retry persist nothing. -/
theorem attempt_traced_retry_rows {σ : Type} (p : Plugin) (drv : Driver σ) (l : List data)
    (w w1 : σ × List Call) (i : Nat) (h : attempt p (traced drv) l w = Step.retry i w1) :
    ∃ ca, w1.2 = w.2 ++ ca ∧ ∀ rest, persisted (ca ++ rest) = persisted rest := by
  unfold attempt at h
  simp only [traced_Begin] at h
  rcases hB : drv.Begin w.1 with ⟨s1, _ | e0⟩
  · simp only [hB] at h
    obtain ⟨ce, h1, h2, -⟩ := insertLoop_traced_calls p drv l 0 s1 (w.2 ++ [Call.begin none])
    rcases hL : insertLoop p (traced drv) l 0 (s1, w.2 ++ [Call.begin none]) with
      w2 | ⟨j, e1, w2⟩ | w2
    · simp only [hL, traced_Commit] at h
      rcases hC : drv.Commit w2.1 with ⟨s3, _ | e2⟩ <;> simp [hC] at h
    · rw [hL] at h1
      simp only [LoopResult.state] at h1
      simp only [hL, traced_Rollback, traced_LogError] at h
      rcases hR : drv.Rollback (drv.LogError e1 w2.1) with ⟨s3, _ | r⟩
      · simp only [hR] at h
        split at h
        · simp only [Step.retry.injEq] at h
          obtain ⟨-, rfl⟩ := h
          refine ⟨Call.begin none :: ((ce ++ [Call.log e1]) ++ Call.rollback none :: []),
            by simp [h1], ?_⟩
          intro rest
          rw [persisted, List.cons_append, persistedFrom_begin, List.append_assoc,
            List.cons_append, List.nil_append,
            persistedFrom_rolled_back _ (execs_then_log p l ce e1 h2)]
          rfl
        · simp at h
      · simp [hR] at h
    · simp [hL] at h
  · simp [hB] at h

/-- The rows persisted by a run, in terms of what it returns. -/
theorem Write_traced_rows {σ : Type} (p : Plugin) (drv : Driver σ) :
    ∀ (l : List data) (w : σ × List Call),
      ∃ cs, (Write p (traced drv) l w).state.2 = w.2 ++ cs ∧
        (∀ c e w1, Write p (traced drv) l w = Outcome.ret c e w1 → c ≤ l.length) ∧
        (∀ c w1, Write p (traced drv) l w = Outcome.ret c none w1 →
          persisted cs = (l.take c).map (rowOf p) ∨ (c = 1 ∧ persisted cs = [])) ∧
        (∀ c e w1, Write p (traced drv) l w = Outcome.ret c (some e) w1 →
          (∀ r, Call.rollback (some r) ∉ cs) → persisted cs = []) := by
  refine Write_induct p (traced drv)
    (fun l w o => ∃ cs, o.state.2 = w.2 ++ cs ∧
      (∀ c e w1, o = Outcome.ret c e w1 → c ≤ l.length) ∧
      (∀ c w1, o = Outcome.ret c none w1 →
        persisted cs = (l.take c).map (rowOf p) ∨ (c = 1 ∧ persisted cs = [])) ∧
      (∀ c e w1, o = Outcome.ret c (some e) w1 →
        (∀ r, Call.rollback (some r) ∉ cs) → persisted cs = [])) ?_ ?_
  · intro l w o h
    exact attempt_traced_final_rows p drv l w o h
  · intro l w i w1 h hi hlt ih
    obtain ⟨ca, hca, hrows⟩ := attempt_traced_retry_rows p drv l w w1 i h
    obtain ⟨cs1, h1, h2, h3, h4⟩ := ih
    have hlen : (l.take i).length = i := by simp only [List.length_take]; omega
    refine ⟨ca ++ cs1, by rw [h1, hca, List.append_assoc], ?_, ?_, ?_⟩
    · intro c e w2 ho
      have := h2 c e w2 ho
      omega
    · intro c w2 ho
      have hc := h2 c none w2 ho
      rw [hlen] at hc
      rw [hrows]
      rcases h3 c w2 ho with h5 | h5
      · left
        rw [h5, List.take_take, Nat.min_eq_left hc]
      · exact Or.inr h5
    · intro c e w2 ho hno
      rw [hrows]
      exact h4 c e w2 ho (fun r hr => hno r (List.mem_append_right _ hr))

/-- C20: persisted-prefix invariant, for a store in which only a successful
`Commit` makes the rows of its transaction durable.  When `Write(l)` returns
`(c, nil)` the rows persisted by the call are the records `l[0..c-1]`, each once
and in order, or there are none and `c = 1`; when it returns an error and no
`Rollback` of the call failed, no row is persisted. -/
theorem Write_persisted {σ : Type} (p : Plugin) (drv : Driver σ) (l : List data) (s : σ) :
    (∀ c s1, Write p drv l s = Outcome.ret c none s1 →
      c ≤ l.length ∧
        (persisted (callsOf p drv l s) = (l.take c).map (rowOf p) ∨
          (c = 1 ∧ persisted (callsOf p drv l s) = []))) ∧
      (∀ c e s1, Write p drv l s = Outcome.ret c (some e) s1 →
        (∀ r, Call.rollback (some r) ∉ callsOf p drv l s) →
          persisted (callsOf p drv l s) = []) := by
  obtain ⟨cs, h1, h2, h3, h4⟩ := Write_traced_rows p drv l (s, [])
  have hcs : callsOf p drv l s = cs := by simpa [callsOf] using h1
  rw [hcs]
  constructor
  · intro c s1 ho
    obtain ⟨t1, ht⟩ := traced_of_Write p drv l s [] c none s1 ho
    exact ⟨h2 c none _ ht, h3 c _ ht⟩
  · intro c e s1 ho hno
    obtain ⟨t1, ht⟩ := traced_of_Write p drv l s [] c (some e) s1 ho
    exact h4 c e _ ht hno

theorem Write_persisted_witness :
    2 ≤ [rowA, rowB, rowBad, rowA].length ∧
      (persisted (callsOf demoPlugin (storeDriver hasNull) [rowA, rowB, rowBad, rowA]
          emptyStore) = ([rowA, rowB, rowBad, rowA].take 2).map (rowOf demoPlugin) ∨
        (2 = 1 ∧ persisted (callsOf demoPlugin (storeDriver hasNull)
          [rowA, rowB, rowBad, rowA] emptyStore) = [])) :=
  (Write_persisted demoPlugin (storeDriver hasNull) [rowA, rowB, rowBad, rowA]
    emptyStore).1 2
    { rows := [(stmtA, [Value.int 1]), (stmtB, [Value.str "z"])], pending := [] }
    (by decide)

end OutPostgres
